import Mathlib

/-!
A verification development for the `httprouter` radix-tree router.

The Go sources (`tree.go`, `router.go`) are shallowly embedded below:
Go strings become `List Char`, Go `http.Handler` values become opaque
`Nat` identifiers, in-place mutation becomes explicit state passing and
Go `panic`s become explicit error values that are threaded outward
(mutations performed before a panic are kept, as in Go).
-/

namespace HR

/-- Mirrors Go `nodeType` (`static`, `root`, `param`, `catchAll`). -/
inductive NType where
  | static : NType
  | root : NType
  | param : NType
  | catchAll : NType
deriving DecidableEq, Repr

/-- Mirrors the Go `node` struct: `path`, `priority`, `nType`, `literals`,
`indices`, `wild`, `catchAll`, `handle`, `wildcardNames` (in that order). -/
inductive Node where
  | mk : List Char → Nat → NType → List Node → List Char → Option Node →
      Option Node → Option Nat → List (List Char) → Node
deriving Repr

/-- Field `path` of the Go `node` struct. -/
def Node.path : Node → List Char
  | .mk p _ _ _ _ _ _ _ _ => p

/-- Field `priority` of the Go `node` struct. -/
def Node.priority : Node → Nat
  | .mk _ pr _ _ _ _ _ _ _ => pr

/-- Field `nType` of the Go `node` struct. -/
def Node.nType : Node → NType
  | .mk _ _ t _ _ _ _ _ _ => t

/-- Field `literals` of the Go `node` struct. -/
def Node.literals : Node → List Node
  | .mk _ _ _ ls _ _ _ _ _ => ls

/-- Field `indices` of the Go `node` struct. -/
def Node.indices : Node → List Char
  | .mk _ _ _ _ ix _ _ _ _ => ix

/-- Field `wild` of the Go `node` struct. -/
def Node.wild : Node → Option Node
  | .mk _ _ _ _ _ w _ _ _ => w

/-- Field `catchAll` of the Go `node` struct. -/
def Node.catchAll : Node → Option Node
  | .mk _ _ _ _ _ _ ca _ _ => ca

/-- Field `handle` of the Go `node` struct. -/
def Node.handle : Node → Option Nat
  | .mk _ _ _ _ _ _ _ h _ => h

/-- Field `wildcardNames` of the Go `node` struct. -/
def Node.wildcardNames : Node → List (List Char)
  | .mk _ _ _ _ _ _ _ _ nm => nm

/-- The zero value `&node{}` of the Go `node` struct. -/
def emptyNode : Node := .mk [] 0 .static [] [] none none none []

/-- The errors with which registration can abort. Each constructor stands
for one `panic` site in `tree.go` (`outOfFuel` is the recursion bound of
the embedding, never reached on adequate fuel). -/
inductive RouteErr where
  | alreadyRegistered : RouteErr
  | ambiguous : RouteErr
  | catchAllNotLast : RouteErr
  | catchAllMidSegment : RouteErr
  | multiWildcard : RouteErr
  | unnamedWildcard : RouteErr
  | indexPanic : RouteErr
  | outOfFuel : RouteErr
deriving DecidableEq, Repr

/-- Go `longestCommonPrefix` from `tree.go`. -/
def longestCommonPrefix : List Char → List Char → Nat
  | a :: as, b :: bs => if a = b then 1 + longestCommonPrefix as bs else 0
  | _, _ => 0

/-- Go `findNextWildcard` from `tree.go`: position of the first `:`/`*`,
or `none` (Go returns index `-1`). -/
def findNextWildcard : List Char → Option (Char × Nat)
  | [] => none
  | c :: r =>
    if c = ':' ∨ c = '*' then some (c, 0)
    else (findNextWildcard r).map (fun p => (p.1, p.2 + 1))

mutual

/-- Go `normalizePath` from `tree.go`, written as a structural scan over
the pattern (characters play the role of Go's bytes; patterns are ASCII).
`pos` is the index of the current head inside the whole pattern and
`prev` the character just before it (both only feed the catch-all
segment-alignment check `start > 1 && chars[start-1] != '/'`). -/
def goNorm : List Char → Nat → Option Char → Except RouteErr (List Char × List (List Char))
  | [], _, _ => .ok ([], [])
  | c :: rest, pos, prev =>
    if c = ':' ∨ c = '*' then goName c pos prev rest []
    else
      match goNorm rest (pos + 1) (some c) with
      | .ok (np, names) => .ok (c :: np, names)
      | .error e => .error e

/-- The inner token scan of Go `normalizePath`: `w` is the wildcard
introducer found at index `pos0` (preceded by `prev`), `acc` the name
characters collected so far. -/
def goName (w : Char) (pos0 : Nat) (prev : Option Char) : List Char → List Char → Except RouteErr (List Char × List (List Char))
  | [], acc =>
    if acc.isEmpty then .error .unnamedWildcard
    else if w = '*' ∧ 1 < pos0 ∧ prev ≠ some '/' then .error .catchAllMidSegment
    else .ok ([w], [acc])
  | c :: rest, acc =>
    if c = ':' ∨ c = '*' then .error .multiWildcard
    else if c = '/' then
      if acc.isEmpty then .error .unnamedWildcard
      else if w = '*' then
        if 1 < pos0 ∧ prev ≠ some '/' then .error .catchAllMidSegment
        else .error .catchAllNotLast
      else
        match goNorm rest (pos0 + acc.length + 2) (some '/') with
        | .ok (np, names) => .ok (w :: '/' :: np, acc :: names)
        | .error e => .error e
    else goName w pos0 prev rest (acc ++ [c])

end

/-- Go `normalizePath` entry point. -/
def normalizePath (path : List Char) : Except RouteErr (List Char × List (List Char)) :=
  goNorm path 0 none

/-- Go `denormalizePath` from `tree.go`. `none` models the index-out-of-range
panic Go hits when `wildcardNames` has fewer entries than the normalized
path has sentinels. -/
def denormalizePath : List Char → List (List Char) → Option (List Char)
  | [], _ => some []
  | c :: rest, names =>
    if c ≠ ':' ∧ c ≠ '*' then (denormalizePath rest names).map (fun p => c :: p)
    else
      match names with
      | [] => none
      | nm :: names' => (denormalizePath rest names').map (fun p => nm ++ p)

/-- Result of Go `(*node).search`: Go's `nil, nil` return is `noMatch`,
a non-nil node with its params is `found`, and `panicked` marks the
slice-index panic that misaligned `indices`/`literals` would trigger. -/
inductive SRes where
  | panicked : SRes
  | noMatch : SRes
  | found : Node → List (List Char) → SRes

/-- The token consumption of the wildcard branch in Go `search`
(lines 266-273): split at the first `/` (`strings.IndexByte`); with no
`/` the whole remainder is the token and the path becomes empty. -/
def tokenSplit (path : List Char) : List Char × List Char :=
  match List.findIdx? (fun c => c = '/') path with
  | some k => (path.take k, path.drop k)
  | none => (path, [])

/-- The last two lines of the wildcard fall-through in Go `search`
(lines 288-292 of `tree.go`): a `catchAll` child matches whatever
remaining path it is handed, else the search fails. -/
def catchAllCheck : Option Node → List Char → SRes
  | some ca, path => .found ca [path]
  | none, _ => .noMatch

mutual

/-- Go `(*node).search` from `tree.go`. The fall-through of lines 262-292
(guarded by `len(path) > 0 && path[0] != '/'`) first gives the wildcard
branch a chance (`wildOutcome`) and, when that falls through, hands the
possibly token-stripped remainder to the catch-all (`catchAllCheck`). -/
def search : Node → List Char → SRes
  | .mk np pr t ls ix w ca h nm, path =>
    if path.isEmpty then .found (.mk np pr t ls ix w ca h nm) []
    else if List.isPrefixOf np path then
      let path1 := path.drop np.length
      if path1.isEmpty then .found (.mk np pr t ls ix w ca h nm) []
      else
        match searchLits ix ls path1 with
        | .noMatch =>
          if path1.head? = some '/' then .noMatch
          else
            match wildOutcome w path1 with
            | .inl r => r
            | .inr path2 => catchAllCheck ca path2
        | r => r
    else
      if path.head? = some '/' then .noMatch
      else
        match wildOutcome w path with
        | .inl r => r
        | .inr path2 => catchAllCheck ca path2

/-- The literal-children scan of Go `search` (lines 253-258): walk
`indices` and `literals` in step, recursing into the child whose index
character equals the head of the path; a hit on an index position with
no corresponding literal child is Go's slice-index panic. -/
def searchLits : List Char → List Node → List Char → SRes
  | cs, [], path =>
    if cs.any (fun c => path.head? = some c) then .panicked else .noMatch
  | [], _ :: _, _ => .noMatch
  | c :: cs, l :: lrest, path =>
    if path.head? = some c then
      match search l path with
      | .panicked => .panicked
      | .noMatch => searchLits cs lrest path
      | r => r
    else searchLits cs lrest path

/-- The wildcard attempt of Go `search` (lines 264-286): consume the
token up to the next `/` (or the whole remainder), finish at the wild
node or descend into its continuation child; `.inr` is the fall-through
to the catch-all carrying the mutated `path` variable, whose token has
already been consumed when a wild child exists. -/
def wildOutcome : Option Node → List Char → SRes ⊕ List Char
  | none, path => .inr path
  | some wn, path => wildAttempt wn path

/-- The body of the wildcard attempt, on the wild node itself. -/
def wildAttempt : Node → List Char → SRes ⊕ List Char
  | .mk wnp wpr wt wls wix ww wca wh wnm, path =>
    if (tokenSplit path).2.isEmpty then
      match wh with
      | some _ => .inl (.found (.mk wnp wpr wt wls wix ww wca wh wnm) [(tokenSplit path).1])
      | none => .inr (tokenSplit path).2
    else
      match wls with
      | [] => .inr (tokenSplit path).2
      | wc :: _ =>
        match search wc (tokenSplit path).2 with
        | .panicked => .inl .panicked
        | .noMatch => .inr (tokenSplit path).2
        | .found m ps => .inl (.found m ((tokenSplit path).1 :: ps))

end

/-- Whether a search panicked (never happens on well-formed trees). -/
def SRes.isPanic : SRes → Bool
  | .panicked => true
  | _ => false

/-- Whether a search returned a node. -/
def SRes.isFound : SRes → Bool
  | .found _ _ => true
  | _ => false

/-- Whether a search reported no match (Go's `nil, nil`). -/
def SRes.isNoMatch : SRes → Bool
  | .noMatch => true
  | _ => false

/-- The `handle` of the node a search returned, if any. -/
def SRes.foundHandle : SRes → Option Nat
  | .found n _ => n.handle
  | _ => none

/-- The `wildcardNames` of the node a search returned. -/
def SRes.foundNames : SRes → Option (List (List Char))
  | .found n _ => some n.wildcardNames
  | _ => none

/-- The captured parameter values a search returned, if it found a node. -/
def SRes.caps : SRes → Option (List (List Char))
  | .found _ ps => some ps
  | _ => none

/-- `n.priority++`. -/
def bumpPrio : Node → Node
  | .mk p pr t ls ix w ca h nm => .mk p (pr + 1) t ls ix w ca h nm

/-- `n.nType = t`. -/
def setNType : Node → NType → Node
  | .mk p pr _ ls ix w ca h nm, t => .mk p pr t ls ix w ca h nm

/-- `n.wild = w`. -/
def setWild : Node → Option Node → Node
  | .mk p pr t ls ix _ ca h nm, w => .mk p pr t ls ix w ca h nm

/-- `n.literals = ls`. -/
def setLits : Node → List Node → Node
  | .mk p pr t _ ix w ca h nm, ls => .mk p pr t ls ix w ca h nm

/-- `n.handle = h; n.wildcardNames = nm` (the end of a successful walk). -/
def setHandleNames : Node → Option Nat → List (List Char) → Node
  | .mk p pr t ls ix w ca _ _, h, nm => .mk p pr t ls ix w ca h nm

/-- Lines 139-142 of `tree.go`: `n.indices += string([]byte{nextChar})`
and `n.literals = append(n.literals, &node{})`. -/
def appendChild : Node → Char → Node
  | .mk p pr t ls ix w ca h nm, c => .mk p pr t (ls ++ [emptyNode]) (ix ++ [c]) w ca h nm

/-- The move-to-front loop of Go `incrementLiteralPrio` (lines 44-48):
swap the node at the current position with its left neighbour while the
neighbour's priority is lower. The out-of-bounds arm is unreachable when
the starting position is in bounds. -/
def moveUp (prio : Nat) : List Node → Nat → List Node × Nat
  | cs, 0 => (cs, 0)
  | cs, q + 1 =>
    match cs.get? q, cs.get? (q + 1) with
    | some prev, some cur =>
      if prev.priority < prio then moveUp prio ((cs.set q cur).set (q + 1) prev) q
      else (cs, q + 1)
    | _, _ => (cs, q + 1)

/-- Go `(*node).incrementLiteralPrio` from `tree.go`: bump the priority of
the child at `pos`, move it ahead of lower-priority siblings, and rebuild
`indices` to match. `none` models the slice-index panic on an
out-of-bounds `pos`. -/
def incrementLiteralPrio : Node → Nat → Option (Node × Nat)
  | .mk p pr t ls ix w ca h nm, pos =>
    match ls.get? pos with
    | none => none
    | some child =>
      let ls1 := ls.set pos (bumpPrio child)
      let prio := (bumpPrio child).priority
      let m := moveUp prio ls1 pos
      let ix2 :=
        if m.2 ≠ pos then
          ix.take m.2 ++ (ix.drop pos).take 1 ++ (ix.drop m.2).take (pos - m.2) ++ ix.drop (pos + 1)
        else ix
      some (.mk p pr t m.1 ix2 w ca h nm, m.2)

/-- The node split of Go `addRoute` (lines 79-101): the current node keeps
the common path up to the inflection `i` and its former contents move into
a single literal child (note Go clears `handle` but keeps `wildcardNames`). -/
def splitNode : Node → Nat → List Char → Node
  | .mk np pr t ls ix w ca h nm, i, path =>
    let child : Node := .mk (np.drop i) (pr - 1) .static ls ix w ca h nm
    .mk (path.take i) pr t [child] ((np.drop i).take 1) none none none nm

/-- Go `(*node).insertChild` from `tree.go`. The loop is rendered as fuel
recursion (`fuel` exceeds the remaining path length at every call site, so
`outOfFuel` is unreachable); a Go panic returns the mutations already made
together with the error, exactly as the panic leaves the tree behind. -/
def insertChild (fuel : Nat) (n : Node) (path : List Char) (handle : Option Nat) (names : List (List Char)) : Node × Option RouteErr :=
  match fuel with
  | 0 => (n, some .outOfFuel)
  | fuel + 1 =>
    match findNextWildcard path with
    | none =>
      match n with
      | .mk _ pr t ls ix w ca _ _ => (.mk path pr t ls ix w ca handle names, none)
    | some (wc, i) =>
      match n with
      | .mk np pr t ls ix w ca h nm =>
        if wc = ':' then
          match w with
          | some w0 => (.mk np pr t ls ix (some w0) ca h nm, some .ambiguous)
          | none =>
            let np' := if 0 < i then path.take i else np
            let path' := path.drop i
            if 1 < path'.length then
              let rest := path'.drop 1
              let child0 : Node := .mk [] 1 .static [] [] none none none []
              let r := insertChild fuel child0 rest handle names
              let wildNode : Node := .mk [':'] 1 .param [r.1] [] none none none []
              (.mk np' pr t ls ix (some wildNode) ca h nm, r.2)
            else
              let wildNode : Node := .mk [':'] 1 .param [] [] none none handle names
              (.mk np' pr t ls ix (some wildNode) ca h nm, none)
        else
          if i ≠ path.length - 1 then (.mk np pr t ls ix w ca h nm, some .catchAllNotLast)
          else
            match ca with
            | some ca0 => (.mk np pr t ls ix w (some ca0) h nm, some .ambiguous)
            | none =>
              let np' := if np.isEmpty then path.take i else np
              let caNode : Node := .mk ['*'] 1 .catchAll [] [] none none handle names
              (.mk np' pr t ls ix w (some caNode) h nm, none)

/-- The `walk` loop of Go `addRoute` (lines 75-157), one fuel unit per
iteration. Mutations made before a panic (priority bumps, reorderings,
splits) are kept in the returned tree, as in Go. -/
def addRouteWalk (fuel : Nat) (n : Node) (path : List Char) (handle : Option Nat) (names : List (List Char)) : Node × Option RouteErr :=
  match fuel with
  | 0 => (n, some .outOfFuel)
  | fuel + 1 =>
    let i := longestCommonPrefix n.path path
    let n1 := if i < n.path.length then splitNode n i path else n
    let path1 := path.drop i
    match path1 with
    | [] =>
      if n1.handle.isSome then (n1, some .alreadyRegistered)
      else (setHandleNames n1 handle names, none)
    | nextChar :: _ =>
      if h : nextChar = ':' ∧ n1.wild.isSome ∧ 1 < path1.length then
        let r := addRouteWalk fuel (n1.wild.get h.2.1) path1 handle names
        (setWild n1 (some r.1), r.2)
      else if n1.nType = .param ∧ 0 < n1.literals.length then
        match n1.literals with
        | [] => (n1, some .indexPanic)
        | c0 :: tl =>
          let r := addRouteWalk fuel (bumpPrio c0) path1 handle names
          (setLits n1 (r.1 :: tl), r.2)
      else
        match List.findIdx? (fun c => c = nextChar) n1.indices with
        | some j =>
          match incrementLiteralPrio n1 j with
          | none => (n1, some .indexPanic)
          | some (n2, pos) =>
            match n2.literals.get? pos with
            | none => (n2, some .indexPanic)
            | some child =>
              let r := addRouteWalk fuel child path1 handle names
              (setLits n2 (n2.literals.set pos r.1), r.2)
        | none =>
          if nextChar ≠ ':' ∧ nextChar ≠ '*' then
            let n2 := appendChild n1 nextChar
            match incrementLiteralPrio n2 (n2.indices.length - 1) with
            | none => (n2, some .indexPanic)
            | some (n3, newPos) =>
              match n3.literals.get? newPos with
              | none => (n3, some .indexPanic)
              | some child =>
                let r := insertChild (path1.length + 1) child path1 handle names
                (setLits n3 (n3.literals.set newPos r.1), r.2)
          else insertChild (path1.length + 1) n1 path1 handle names

mutual

/-- Size of a node: the number of `node` structs in its subtree. Used as
the fuel bound for `addRoute` and in termination arguments; priorities do
not contribute. -/
def Node.size : Node → Nat
  | .mk _ _ _ ls _ w ca _ _ => 1 + sizeL ls + sizeO w + sizeO ca

/-- Total size of a list of nodes (one extra unit per element). -/
def sizeL : List Node → Nat
  | [] => 0
  | c :: cs => 1 + c.size + sizeL cs

/-- Size of an optional node. -/
def sizeO : Option Node → Nat
  | none => 0
  | some c => 1 + c.size

end

mutual

/-- The number of handler-carrying nodes in a node's subtree, the node
itself included (what the spec calls the handler count governing
`priority`). -/
def countHandlers : Node → Nat
  | .mk _ _ _ ls _ w ca h _ =>
    (if h.isSome then 1 else 0) + countHandlersL ls + countHandlersO w + countHandlersO ca

/-- Handler count over a list of children. -/
def countHandlersL : List Node → Nat
  | [] => 0
  | c :: cs => countHandlers c + countHandlersL cs

/-- Handler count under an optional child. -/
def countHandlersO : Option Node → Nat
  | none => 0
  | some c => countHandlers c

end

/-- Go `(*node).addRoute` from `tree.go`: bump the root priority, normalize
the pattern, then install it (empty tree) or walk the tree. The fuel
passed to the walk exceeds any possible number of iterations. -/
def addRoute (n : Node) (rawPath : List Char) (handle : Option Nat) : Node × Option RouteErr :=
  let n1 := bumpPrio n
  match normalizePath rawPath with
  | .error e => (n1, some e)
  | .ok (path, wildcardNames) =>
    if n1.path.isEmpty ∧ n1.indices.isEmpty then
      insertChild (path.length + 1) (setNType n1 .root) path handle wildcardNames
    else
      addRouteWalk (Node.size n1 + path.length + 1) n1 path handle wildcardNames

/-- Result of Go `(*Router).lookup`: handler id plus the `Params`
key/value pairs, `noMatch` for `nil, nil`, `panicked` for the
slice-index panics a malformed tree could trigger. -/
inductive LookupRes where
  | panicked : LookupRes
  | noMatch : LookupRes
  | ok : Nat → List (List Char × List Char) → LookupRes
deriving DecidableEq, Repr

/-- Go `var catchAllParam = "$catchAllParam"` from `router.go`. -/
def catchAllParamKey : List Char := ['$', 'c', 'a', 't', 'c', 'h', 'A', 'l', 'l', 'P', 'a', 'r', 'a', 'm']

/-- The `Params` construction of Go `lookup` (lines 271-280): a slice of
`len(paramValues)` pairs, the first `len(wildcardNames)` filled by zipping
names with values (a literal `*` name is replaced by the reserved
catch-all key), the rest left as zero-value pairs. Callers ensure
`names.length ≤ vals.length`. -/
def mkParams (names : List (List Char)) (vals : List (List Char)) : List (List Char × List Char) :=
  (names.zip vals).map (fun p => (if p.1 = ['*'] then catchAllParamKey else p.1, p.2))
    ++ List.replicate (vals.length - names.length) ([], [])

/-- `r.trees[method]` — association-list reading of the Go method map. -/
def lookupList : List (List Char × Node) → List Char → Option Node
  | [], _ => none
  | (m, t) :: rest, method => if m = method then some t else lookupList rest method

/-- Go `(*Router).lookup` from `router.go` over the method-to-tree table:
search the method's tree and zip the captured values against the stored
wildcard names. Writing `params[i]` for `i < len(wildcardNames)` panics
when there are more names than captured values. -/
def lookup (trees : List (List Char × Node)) (method : List Char) (path : List Char) : LookupRes :=
  match lookupList trees method with
  | none => .noMatch
  | some root =>
    match search root path with
    | .panicked => .panicked
    | .noMatch => .noMatch
    | .found m vals =>
      match m.handle with
      | none => .noMatch
      | some h =>
        if vals.isEmpty then .ok h []
        else if vals.length < m.wildcardNames.length then .panicked
        else .ok h (mkParams m.wildcardNames vals)

/-- Go string comparison `<` (lexicographic). -/
def lexLt : List Char → List Char → Bool
  | [], [] => false
  | [], _ :: _ => true
  | _ :: _, [] => false
  | a :: as, b :: bs => if a = b then lexLt as bs else decide (a < b)

/-- One step of the insertion sort in Go `allowed` (lines 246-250): the
element settles just before the first strictly greater entry, i.e. after
every entry less than or equal to it, exactly where the swap loop leaves it. -/
def goInsertSorted (x : List Char) : List (List Char) → List (List Char)
  | [] => [x]
  | h :: t => if lexLt x h then x :: h :: t else h :: goInsertSorted x t

/-- The insertion sort in Go `allowed`: the prefix is kept sorted and each
next element is inserted into it. -/
def goSort (l : List (List Char)) : List (List Char) :=
  l.foldl (fun acc x => goInsertSorted x acc) []

/-- `http.MethodOptions`. -/
def optionsMethod : List Char := ['O', 'P', 'T', 'I', 'O', 'N', 'S']

/-- The Go `Router` fields `allowed` reads: the method-to-tree map and the
cached server-wide Allow value. -/
structure RouterModel where
  trees : List (List Char × Node)
  globalAllowed : List Char

/-- `strings.Join(allowed, ", ")`. -/
def joinComma : List (List Char) → List Char
  | [] => []
  | [x] => x
  | x :: xs => x ++ ',' :: ' ' :: joinComma xs

/-- Lines 239-255 of `router.go`: append `OPTIONS` when anything was
collected, sort, join; empty input yields the empty string. -/
def finishAllowed (ms : List (List Char)) : List Char :=
  if ms.isEmpty then [] else joinComma (goSort (ms ++ [optionsMethod]))

/-- The method-collection loop of Go `allowed` for a concrete path
(lines 225-236): skip the requested method and `OPTIONS`, keep methods
whose tree search finds a handler-bearing node. `none` propagates a
search panic. -/
def collectAllowed : List (List Char × Node) → List Char → List Char → Option (List (List Char))
  | [], _, _ => some []
  | (m, t) :: rest, path, reqMethod =>
    if m = reqMethod ∨ m = optionsMethod then collectAllowed rest path reqMethod
    else
      match search t path with
      | .panicked => none
      | .noMatch => collectAllowed rest path reqMethod
      | .found fn _ =>
        match collectAllowed rest path reqMethod with
        | none => none
        | some ms => some (if fn.handle.isSome then m :: ms else ms)

/-- Go `(*Router).allowed` from `router.go`. -/
def allowed (r : RouterModel) (path : List Char) (reqMethod : List Char) : Option (List Char) :=
  if path = ['*'] then
    if reqMethod = [] then
      some (finishAllowed ((r.trees.filter (fun mt => ¬ mt.1 = optionsMethod)).map (fun mt => mt.1)))
    else some r.globalAllowed
  else
    match collectAllowed r.trees path reqMethod with
    | none => none
    | some ms => some (finishAllowed ms)

mutual

/-- Search safety: at every node the `indices` string is no longer than
the `literals` slice, so the literal scan of `search` never indexes past
the end of `literals`. -/
def searchSafe : Node → Bool
  | .mk _ _ _ ls ix w ca _ _ =>
    decide (ix.length ≤ ls.length) && searchSafeL ls && searchSafeO w && searchSafeO ca

/-- `searchSafe` over a list of children. -/
def searchSafeL : List Node → Bool
  | [] => true
  | c :: cs => searchSafe c && searchSafeL cs

/-- `searchSafe` under an optional child. -/
def searchSafeO : Option Node → Bool
  | none => true
  | some c => searchSafe c

end

/-- Whether a tree search for the path succeeds with a handler-bearing
node (`foundNode != nil && foundNode.handle != nil` in `allowed`). -/
def hasHandlerMatch (t : Node) (path : List Char) : Bool :=
  match search t path with
  | .found fn _ => fn.handle.isSome
  | _ => false

/-- Specification-side description of the collected Allow methods, taken
from the spec's words: the methods other than the excluded one and
`OPTIONS` whose tree yields a successful, handler-bearing match for the
path. -/
def allowedMethodsSpec (trees : List (List Char × Node)) (path reqMethod : List Char) : List (List Char) :=
  (trees.filter (fun mt =>
    !decide (mt.1 = reqMethod) && !decide (mt.1 = optionsMethod) && hasHandlerMatch mt.2 path)).map
    (fun mt => mt.1)

/-- The `≤` order corresponding to Go's string `<`: `a` is no greater
than `b` when `b < a` fails. -/
def lexLe (a b : List Char) : Prop := lexLt b a = false

/-! ### The well-formedness invariant of built trees -/

/-- No wildcard sentinel characters. -/
def noSent (cs : List Char) : Bool :=
  cs.all fun c => !decide (c = ':') && !decide (c = '*')

/-- The number of wildcard sentinels in a normalized path. -/
def countWild (cs : List Char) : Nat :=
  cs.countP fun c => decide (c = ':') || decide (c = '*')

/-- Well-formed normalized-path suffixes: a `:` is followed by `/` or
ends the path, and a `*` ends the path. `normalizePath` only produces
such strings, and they stay in this shape as the insertion walk consumes
them. -/
def normSuffix : List Char → Bool
  | [] => true
  | c :: rest =>
    if c = '*' then rest.isEmpty
    else if c = ':' then (rest.isEmpty || decide (rest.head? = some '/')) && normSuffix rest
    else normSuffix rest

/-- Pairwise-distinct characters. -/
def nodupB : List Char → Bool
  | [] => true
  | c :: rest => !rest.contains c && nodupB rest

/-- `indices`/`literals` alignment: equal lengths and each literal child's
segment starts with its index character. -/
def alignedB (ix : List Char) (ls : List Node) : Bool :=
  decide (ix.length = ls.length) &&
    (ix.zip ls).all fun p => decide (p.2.path.head? = some p.1)

/-- Every child segment starts with `/` (the continuation children of a
param node). -/
def headsSlash (ls : List Node) : Bool :=
  ls.all fun c => decide (c.path.head? = some '/')

/-- Every literal child is a `static` node. -/
def allStatic (ls : List Node) : Bool :=
  ls.all fun c => decide (c.nType = .static)

mutual

/-- The invariant every node of a built tree satisfies. `d` is the number
of wildcard edges on the path from the root to this node, the node's own
incoming edge included; a stored handler's `wildcardNames` list has
exactly `d` entries. Literal children sit at the same depth, the wild and
catch-all children one deeper. Kind-specific clauses: `static`/`root`
nodes have sentinel-free segments, aligned and duplicate-free child
indices, and their priority counts the handlers in their subtree; `param`
nodes have segment `:`, priority 1, at most one (slash-leading, static)
continuation child, an index string that is empty or aligned, and no
wild/catch-all slots of their own; `catchAll` nodes are handler-carrying
leaves with segment `*` and priority 1. -/
def wfNode (d : Nat) : Node → Bool
  | .mk np pr t ls ix w ca h nm =>
    (match t with
     | .static =>
       noSent np && alignedB ix ls && nodupB ix &&
         decide (pr = countHandlers (.mk np pr t ls ix w ca h nm))
     | .root =>
       noSent np && alignedB ix ls && nodupB ix &&
         decide (pr = countHandlers (.mk np pr t ls ix w ca h nm))
     | .param =>
       decide (np = [':']) && decide (ls.length ≤ 1) && decide (pr = 1) &&
         (ix.isEmpty || alignedB ix ls) && nodupB ix && headsSlash ls &&
         w.isNone && ca.isNone
     | .catchAll =>
       decide (np = ['*']) && ls.isEmpty && ix.isEmpty && w.isNone && ca.isNone &&
         h.isSome && decide (pr = 1)) &&
    noSent ix && allStatic ls &&
    (!h.isSome || decide (nm.length = d)) &&
    (match w with | none => true | some wn => decide (wn.nType = .param)) &&
    (match ca with | none => true | some cn => decide (cn.nType = .catchAll)) &&
    wfL d ls && wfO (d + 1) w && wfO (d + 1) ca

/-- `wfNode` over the literal children. -/
def wfL (d : Nat) : List Node → Bool
  | [] => true
  | c :: cs => wfNode d c && wfL d cs

/-- `wfNode` under an optional child. -/
def wfO (d : Nat) : Option Node → Bool
  | none => true
  | some c => wfNode d c

end

/-- The top-level tree invariant: either the pristine zero node (no route
registered yet) or a well-formed tree rooted at a `root` node whose
segment starts with `/`. -/
def treeInv (n : Node) : Bool :=
  (decide (n.path = []) && n.indices.isEmpty && n.literals.isEmpty &&
    n.wild.isNone && n.catchAll.isNone && !n.handle.isSome &&
    decide (n.nType = .static) && decide (n.priority = 0)) ||
  (wfNode 0 n && decide (n.nType = .root) && decide (n.path.head? = some '/'))

/-- The trees reachable by sequences of successful registrations through
the router: patterns start with `/` (enforced by `Router.Handler`) and
handlers are non-nil. -/
inductive Reach : Node → Prop where
  | base : Reach emptyNode
  | step {t t' : Node} {p : List Char} {h : Nat} :
      Reach t → p.head? = some '/' → addRoute t p (some h) = (t', none) → Reach t'

/-- `n.priority = pr` (proof-side helper for stating the pending-priority
precondition of the insertion walk). -/
def setPrio : Node → Nat → Node
  | .mk p _ t ls ix w ca h nm, pr => .mk p pr t ls ix w ca h nm

/-- The left rotation `incrementLiteralPrio` performs on `indices`: the
element at `q` moves to position `pos` and the block `pos..q-1` shifts one
step right. Written with `take`/`drop` so it matches the Go slice
expression verbatim. -/
def rotateTo (l : List α) (pos q : Nat) : List α :=
  l.take pos ++ (l.drop q).take 1 ++ (l.drop pos).take (q - pos) ++ l.drop (q + 1)

/-- `wfNode` with the `priority = countHandlers` clause of `static`/`root`
nodes removed: what still holds of the node on the walk spine while its
priority has already been bumped for a pending registration. -/
def wfCore (d : Nat) : Node → Bool
  | .mk np pr t ls ix w ca h nm =>
    (match t with
     | .static => noSent np && alignedB ix ls && nodupB ix
     | .root => noSent np && alignedB ix ls && nodupB ix
     | .param =>
       decide (np = [':']) && decide (ls.length ≤ 1) && decide (pr = 1) &&
         (ix.isEmpty || alignedB ix ls) && nodupB ix && headsSlash ls &&
         w.isNone && ca.isNone
     | .catchAll =>
       decide (np = ['*']) && ls.isEmpty && ix.isEmpty && w.isNone && ca.isNone &&
         h.isSome && decide (pr = 1)) &&
    noSent ix && allStatic ls &&
    (!h.isSome || decide (nm.length = d)) &&
    (match w with | none => true | some wn => decide (wn.nType = .param)) &&
    (match ca with | none => true | some cn => decide (cn.nType = .catchAll)) &&
    wfL d ls && wfO (d + 1) w && wfO (d + 1) ca

/-- The priority clause `wfCore` leaves out: on `static`/`root` nodes the
priority equals the subtree handler count. -/
def prOk : Node → Bool
  | .mk np pr t ls ix w ca h nm =>
    match t with
    | .static => decide (pr = countHandlers (.mk np pr t ls ix w ca h nm))
    | .root => decide (pr = countHandlers (.mk np pr t ls ix w ca h nm))
    | .param => true
    | .catchAll => true

mutual

/-- The priority discipline of every built tree, node by node:
`static`/`root` nodes carry the handler count of their subtree, `param`
and `catchAll` nodes stay at priority 1 forever. -/
def prioOk : Node → Bool
  | .mk np pr t ls ix w ca h nm =>
    (match t with
     | .static => decide (pr = countHandlers (.mk np pr t ls ix w ca h nm))
     | .root => decide (pr = countHandlers (.mk np pr t ls ix w ca h nm))
     | .param => decide (pr = 1)
     | .catchAll => decide (pr = 1)) &&
    prioOkL ls && prioOkO w && prioOkO ca

/-- `prioOk` over the literal children. -/
def prioOkL : List Node → Bool
  | [] => true
  | c :: cs => prioOk c && prioOkL cs

/-- `prioOk` under an optional child. -/
def prioOkO : Option Node → Bool
  | none => true
  | some c => prioOk c

end

mutual

/-- The `childIndex`/`literalChildren` alignment of every built tree,
node by node: `static`/`root` nodes have equal lengths, pairwise-distinct
index bytes and `indices[i]` equal to the head of `literals[i]`'s
segment; `param` nodes have at most one literal child and an index string
that is either empty (the continuation child Go adds without an `indices`
entry) or aligned; `catchAll` nodes have no children. -/
def alignOk : Node → Bool
  | .mk _ _ t ls ix w ca _ _ =>
    (match t with
     | .static => alignedB ix ls && nodupB ix
     | .root => alignedB ix ls && nodupB ix
     | .param => decide (ls.length ≤ 1) && (ix.isEmpty || alignedB ix ls) && nodupB ix
     | .catchAll => ls.isEmpty && ix.isEmpty) &&
    alignOkL ls && alignOkO w && alignOkO ca

/-- `alignOk` over the literal children. -/
def alignOkL : List Node → Bool
  | [] => true
  | c :: cs => alignOk c && alignOkL cs

/-- `alignOk` under an optional child. -/
def alignOkO : Option Node → Bool
  | none => true
  | some c => alignOk c

end

/-- Literal instantiation of a normalized pattern, as claim C1 describes
it: literal characters stand for themselves, each `:` sentinel is
replaced by a non-empty slash-free token, and a trailing `*` sentinel by
a non-empty suffix that does not begin with `/`. `Inst np toks inst`
relates the normalized pattern `np`, the substituted tokens in
declaration order, and the resulting concrete path. -/
inductive Inst : List Char → List (List Char) → List Char → Prop where
  | nil : Inst [] [] []
  | lit {c : Char} {p : List Char} {toks : List (List Char)} {i : List Char} :
      ¬(c = ':' ∨ c = '*') → Inst p toks i → Inst (c :: p) toks (c :: i)
  | par {p : List Char} {toks : List (List Char)} {i tok : List Char} :
      tok ≠ [] → (∀ c ∈ tok, c ≠ '/') → Inst p toks i →
      Inst (':' :: p) (tok :: toks) (tok ++ i)
  | star {tok : List Char} :
      tok ≠ [] → tok.head? ≠ some '/' → Inst ['*'] [tok] tok

/-! ### Concrete registration scenarios used by the claims -/

/-- Registration of `/a/:x` as handler `0` into an empty tree. -/
def exC1a : Node × Option RouteErr := addRoute emptyNode ['/', 'a', '/', ':', 'x'] (some 0)

/-- Registration of `/a/bc` as handler `1` on top of `exC1a`. -/
def exC1b : Node × Option RouteErr := addRoute exC1a.1 ['/', 'a', '/', 'b', 'c'] (some 1)

/-- Registration of `/a/b` as handler `0` into an empty tree. -/
def exC2a : Node × Option RouteErr := addRoute emptyNode ['/', 'a', '/', 'b'] (some 0)

/-- Registration of `/a/*r` as handler `1` on top of `exC2a`. -/
def exC2b : Node × Option RouteErr := addRoute exC2a.1 ['/', 'a', '/', '*', 'r'] (some 1)

/-- Registration of `/a/:x/y` as handler `0` into an empty tree. -/
def exC2c : Node × Option RouteErr := addRoute emptyNode ['/', 'a', '/', ':', 'x', '/', 'y'] (some 0)

/-- Registration of `/a/*r` as handler `1` on top of `exC2c`, giving a root
with both a wild child and a catch-all child. -/
def exC2d : Node × Option RouteErr := addRoute exC2c.1 ['/', 'a', '/', '*', 'r'] (some 1)

/-- Registration of `/abc` as handler `0` into an empty tree. -/
def exC3a : Node × Option RouteErr := addRoute emptyNode ['/', 'a', 'b', 'c'] (some 0)

/-- The duplicate registration of `/abc`. -/
def exC3b : Node × Option RouteErr := addRoute exC3a.1 ['/', 'a', 'b', 'c'] (some 1)

/-- The duplicate registration of `/a/:x` on top of `exC1a`. -/
def exC3c : Node × Option RouteErr := addRoute exC1a.1 ['/', 'a', '/', ':', 'x'] (some 1)

/-- Registration of `/a/:x/z` as handler `1` on top of `exC2c`, so that the
wild node's subtree holds two handlers. -/
def exC4a : Node × Option RouteErr := addRoute exC2c.1 ['/', 'a', '/', ':', 'x', '/', 'z'] (some 1)

/-- Registration of `/cmd/:tool/x` as handler `0` into an empty tree. -/
def exC5a : Node × Option RouteErr := addRoute emptyNode ['/', 'c', 'm', 'd', '/', ':', 't', 'o', 'o', 'l', '/', 'x'] (some 0)

/-- Registration of `/cmd/:other/y` as handler `1` on top of `exC5a`: its
parameter `:other` sits at the tree position already holding the parameter
branch created for `:tool`, with a different name. -/
def exC5b : Node × Option RouteErr := addRoute exC5a.1 ['/', 'c', 'm', 'd', '/', ':', 'o', 't', 'h', 'e', 'r', '/', 'y'] (some 1)

/-- Registration of `/cmd/:tool/:box` as handler `0` into an empty tree. -/
def exC5c : Node × Option RouteErr := addRoute emptyNode ['/', 'c', 'm', 'd', '/', ':', 't', 'o', 'o', 'l', '/', ':', 'b', 'o', 'x'] (some 0)

/-- Registration of `/cmd/:tool/:set` on top of `exC5c` (the conflicting
terminal parameter of the claim). -/
def exC5d : Node × Option RouteErr := addRoute exC5c.1 ['/', 'c', 'm', 'd', '/', ':', 't', 'o', 'o', 'l', '/', ':', 's', 'e', 't'] (some 1)

/-- Registration of `/cmd/:tool/axe` on top of `exC5c` (the literal sibling
of the claim, which must succeed). -/
def exC5e : Node × Option RouteErr := addRoute exC5c.1 ['/', 'c', 'm', 'd', '/', ':', 't', 'o', 'o', 'l', '/', 'a', 'x', 'e'] (some 1)

/-- Registration of `/cmd/:tool/sub` as handler `0` into an empty tree: the
param node receives a literal continuation child but no `indices` entry. -/
def exC8a : Node × Option RouteErr := addRoute emptyNode ['/', 'c', 'm', 'd', '/', ':', 't', '/', 's'] (some 0)

/-- Registration of `/abc` as handler `5` into an empty tree, stored wholly
in the root node's segment. -/
def exC10 : Node × Option RouteErr := addRoute emptyNode ['/', 'a', 'b', 'c'] (some 5)

/-- The method string `GET`. -/
def getMethod : List Char := ['G', 'E', 'T']

/-- The method string `POST`. -/
def postMethod : List Char := ['P', 'O', 'S', 'T']

/-- Registration of `/doc/` as handler `0` into an empty tree. -/
def exC7doc : Node × Option RouteErr := addRoute emptyNode ['/', 'd', 'o', 'c', '/'] (some 0)

/-- A route table in which `/doc/` is registered only for `GET` and `POST`. -/
def exC7r : RouterModel := ⟨[(getMethod, exC7doc.1), (postMethod, exC7doc.1)], []⟩

/-! ### Theorems settling the claims -/

/-- Claim C10 (confirmed): `search` on the empty path returns the current
node itself, whatever its segment; and after registering only `/abc`
(stored entirely in the root segment, handler `5`), `lookup` of the empty
path succeeds with that handler and no captures. -/
theorem c10_empty_path_returns_root :
    (∀ n : Node, search n [] = .found n []) ∧
    exC10.2 = none ∧
    lookup [(getMethod, exC10.1)] getMethod [] = .ok 5 [] := by
  refine ⟨fun n => ?_, by decide, by decide⟩
  obtain ⟨np, pr, t, ls, ix, w, ca, h, nm⟩ := n
  rfl

/-- Claim C1, counterexample: `/a/:x` (handler 0) and `/a/bc` (handler 1)
register without conflict, yet `search` on `/a/bc` — the literal
instantiation of `/a/:x` with token `bc` — returns handler 1 with no
captures instead of handler 0 with capture `bc`. -/
theorem c1_counterexample :
    exC1a.2 = none ∧ exC1b.2 = none ∧
    (search exC1b.1 ['/', 'a', '/', 'b', 'c']).foundHandle = some 1 ∧
    (search exC1b.1 ['/', 'a', '/', 'b', 'c']).caps = some [] := by
  decide

/-- Claim C2, counterexample: after registering `/a/b` and `/a/*r`, the
root node (`segment "/a/"`) has a catch-all child and no wild child, and
on path `/a//x` search reaches it with remaining path `/x`, which matches
no literal child; the claim demands an unconditional catch-all success
with capture `/x`, but the code returns no match because the remainder
begins with `/`. -/
theorem c2_counterexample :
    exC2b.2 = none ∧
    exC2b.1.path = ['/', 'a', '/'] ∧
    exC2b.1.catchAll.isSome = true ∧
    exC2b.1.wild.isSome = false ∧
    (searchLits exC2b.1.indices exC2b.1.literals ['/', 'x']).isNoMatch = true ∧
    (search exC2b.1 ['/', 'a', '/', '/', 'x']).isNoMatch = true := by
  decide

/-- Claim C2 (corrected): when search reaches a node that has a catch-all
child with a non-empty remaining path (after stripping the node's
segment), and the literal scan fails, the remainder does not begin with
`/`, and the wildcard branch falls through, the search succeeds with the
catch-all node — but the sole capture is the remainder as left by the
wildcard branch, which has already consumed the leading token when a wild
child exists; it equals the whole remainder only when there is none. -/
theorem c2_amended (n ca : Node) (path p2 : List Char)
    (hca : n.catchAll = some ca)
    (hpre : List.isPrefixOf n.path path = true)
    (hrem : path.drop n.path.length ≠ [])
    (hlits : searchLits n.indices n.literals (path.drop n.path.length) = .noMatch)
    (hhead : (path.drop n.path.length).head? ≠ some '/')
    (hwild : wildOutcome n.wild (path.drop n.path.length) = .inr p2) :
    search n path = .found ca [p2] := by
  obtain ⟨np, pr, t, ls, ix, w, caf, h, nm⟩ := n
  simp only [Node.catchAll, Node.path, Node.indices, Node.literals, Node.wild] at *
  have hpne : path ≠ [] := by
    intro hE
    subst hE
    simp [List.isPrefixOf_iff_prefix] at hpre
    simp [hpre] at hrem
  rw [List.head?_drop] at hhead
  simp only [search, List.isEmpty_iff, hpne, if_false, hpre, if_true, hlits, hca, hwild]
  simp [hhead, hrem, catchAllCheck, List.isEmpty_iff, List.head?_drop]

/-- Claim C2, witness: the `exC2d` tree (routes `/a/:x/y`, `/a/*r`) on path
`/a/b/z`: the wildcard consumes `b` and fails deeper, and the catch-all
captures only `/z`. -/
theorem c2_witness :
    search exC2d.1 ['/', 'a', '/', 'b', '/', 'z'] =
      .found (.mk ['*'] 1 .catchAll [] [] none none (some 1) [['r']]) [['/', 'z']] := by
  have h := c2_amended exC2d.1 (.mk ['*'] 1 .catchAll [] [] none none (some 1) [['r']])
    ['/', 'a', '/', 'b', '/', 'z'] ['/', 'z'] rfl rfl (by decide) rfl (by decide) rfl
  exact h

/-- Claim C3, counterexample: registering `/abc` twice does fail with
`RouteAlreadyRegistered`, but the tree is not identical afterwards: the
root priority has changed from 1 to 2. (Moreover a duplicate of the
wildcard pattern `/a/:x` fails with `AmbiguousRoute` instead.) -/
theorem c3_counterexample :
    exC3a.2 = none ∧ exC3a.1.priority = 1 ∧
    exC3b.2 = some .alreadyRegistered ∧ exC3b.1.priority = 2 ∧
    exC3c.2 = some .ambiguous := by
  decide

/-- Claim C4, counterexample: after successfully inserting `/a/:x/y` and
`/a/:x/z`, the param (wild) node has priority 1 although its subtree
carries 2 handler-bearing nodes. -/
theorem c4_counterexample :
    exC2c.2 = none ∧ exC4a.2 = none ∧
    exC4a.1.wild.map Node.priority = some 1 ∧
    exC4a.1.wild.map countHandlers = some 2 := by
  decide

/-- Claim C5, counterexample: registering `/cmd/:tool/x` and then
`/cmd/:other/y` succeeds with no error, although the second pattern's
parameter occupies the tree position already holding the `:tool`
parameter branch and the names differ (the walk merges into the existing
branch); afterwards `/cmd/q/y` resolves to the second handler. -/
theorem c5_counterexample :
    exC5a.2 = none ∧ exC5b.2 = none ∧
    (search exC5b.1 ['/', 'c', 'm', 'd', '/', 'q', '/', 'y']).foundHandle = some 1 := by
  decide

/-- Claim C5 (corrected): an insertion that must create a parameter branch
at a node that already has one fails with `AmbiguousRoute` whatever the
names (first conjunct, at the `insertChild` hand-off where the remaining
pattern starts with its parameter); in particular `/cmd/:tool/:set` after
`/cmd/:tool/:box` fails, while the literal sibling `/cmd/:tool/axe`
registers fine; but a pattern whose parameter merely passes through an
existing parameter position merges into it instead of failing. -/
theorem c5_amended :
    (∀ (fuel : Nat) (n : Node) (path : List Char) (h : Option Nat)
      (nm : List (List Char)) (i : Nat),
      findNextWildcard path = some (':', i) → n.wild.isSome = true →
      (insertChild (fuel + 1) n path h nm).2 = some .ambiguous) ∧
    exC5d.2 = some .ambiguous ∧
    exC5e.2 = none := by
  refine ⟨?_, by decide, by decide⟩
  intro fuel n path h nm i hfind hw
  obtain ⟨np, pr, t, ls, ix, w, ca, hh, nmm⟩ := n
  simp only [Node.wild] at hw
  obtain ⟨w0, rfl⟩ := Option.isSome_iff_exists.mp hw
  simp [insertChild, hfind]

/-- Claim C5, witness: a node with an existing wild child rejects a path
whose first wildcard is a parameter, and the concrete conflict of the
claim is reproduced. -/
theorem c5_witness :
    (insertChild 1 (.mk [] 0 .static [] [] (some emptyNode) none none []) [':', 'q'] none []).2 =
      some .ambiguous := by
  exact c5_amended.1 0 (.mk [] 0 .static [] [] (some emptyNode) none none []) [':', 'q']
    none [] 0 (by decide) (by decide)

/-- Claim C6, counterexample: `normalizePath` accepts `/a/:x` producing
`("/a/:", ["x"])`, but `denormalizePath` gives back `/a/x` — the sentinel
is replaced by the bare name, so the wildcard marker `:` is lost and the
round trip is not the identity. -/
theorem c6_counterexample :
    (normalizePath ['/', 'a', '/', ':', 'x']).toOption = some (['/', 'a', '/', ':'], [['x']]) ∧
    denormalizePath ['/', 'a', '/', ':'] [['x']] = some ['/', 'a', '/', 'x'] ∧
    ¬ (['/', 'a', '/', 'x'] = ['/', 'a', '/', ':', 'x']) := by
  decide

mutual

/-- Round-trip behaviour of the normalizer scan: denormalizing its output
replays the input with every wildcard sentinel character removed. -/
theorem denorm_goNorm (p : List Char) (pos : Nat) (prev : Option Char)
    (np : List Char) (names : List (List Char))
    (hok : goNorm p pos prev = .ok (np, names)) :
    denormalizePath np names = some (p.filter fun c => ¬(c = ':' ∨ c = '*')) := by
  match p with
  | [] =>
    simp only [goNorm, Except.ok.injEq, Prod.mk.injEq] at hok
    obtain ⟨h1, h2⟩ := hok
    subst h1; subst h2
    rfl
  | c :: rest =>
    by_cases hs : c = ':' ∨ c = '*'
    · rw [goNorm, if_pos hs] at hok
      have h2 := denorm_goName c pos prev rest [] np names hok hs
      rw [h2]
      simp only [List.nil_append, List.filter_cons]
      rw [if_neg (by simp only [decide_eq_true_eq]; exact fun hcon => hcon hs)]
    · rw [goNorm, if_neg hs] at hok
      cases hg : goNorm rest (pos + 1) (some c) with
      | error e => rw [hg] at hok; exact absurd hok (by simp)
      | ok r =>
        rw [hg] at hok
        obtain ⟨np', names'⟩ := r
        simp only [Except.ok.injEq, Prod.mk.injEq] at hok
        obtain ⟨h1, h2⟩ := hok
        subst h1; subst h2
        have ih := denorm_goNorm rest (pos + 1) (some c) np' names' hg
        have hc1 : c ≠ ':' := fun h => hs (Or.inl h)
        have hc2 : c ≠ '*' := fun h => hs (Or.inr h)
        simp only [denormalizePath, ne_eq, hc1, hc2, not_false_iff, and_self, if_true, ih,
          List.filter_cons]
        rw [if_pos (by simp)]
        rfl

/-- Round-trip behaviour of the wildcard-name scan: the collected name is
substituted back, followed by the sentinel-stripped remainder. -/
theorem denorm_goName (w : Char) (pos0 : Nat) (prev : Option Char)
    (p : List Char) (acc : List Char) (np : List Char) (names : List (List Char))
    (hok : goName w pos0 prev p acc = .ok (np, names)) (hw : w = ':' ∨ w = '*') :
    denormalizePath np names = some (acc ++ p.filter fun c => ¬(c = ':' ∨ c = '*')) := by
  match p with
  | [] =>
    rw [goName] at hok
    by_cases he : acc.isEmpty
    · rw [if_pos he] at hok; exact absurd hok (by simp)
    · rw [if_neg he] at hok
      by_cases hm : w = '*' ∧ 1 < pos0 ∧ prev ≠ some '/'
      · rw [if_pos hm] at hok; exact absurd hok (by simp)
      · rw [if_neg hm] at hok
        simp only [Except.ok.injEq, Prod.mk.injEq] at hok
        obtain ⟨h1, h2⟩ := hok
        subst h1; subst h2
        have hws : ¬(w ≠ ':' ∧ w ≠ '*') := by
          rcases hw with h | h <;> simp [h]
        simp [denormalizePath, hws]
  | c :: rest =>
    rw [goName] at hok
    by_cases hcs : c = ':' ∨ c = '*'
    · rw [if_pos hcs] at hok; exact absurd hok (by simp)
    · rw [if_neg hcs] at hok
      by_cases hsl : c = '/'
      · rw [if_pos hsl] at hok
        by_cases he : acc.isEmpty
        · rw [if_pos he] at hok; exact absurd hok (by simp)
        · rw [if_neg he] at hok
          by_cases hstar : w = '*'
          · rw [if_pos hstar] at hok
            by_cases hm : 1 < pos0 ∧ prev ≠ some '/'
            · rw [if_pos hm] at hok; exact absurd hok (by simp)
            · rw [if_neg hm] at hok; exact absurd hok (by simp)
          · rw [if_neg hstar] at hok
            cases hg : goNorm rest (pos0 + acc.length + 2) (some '/') with
            | error e => rw [hg] at hok; exact absurd hok (by simp)
            | ok r =>
              rw [hg] at hok
              obtain ⟨np', names'⟩ := r
              simp only [Except.ok.injEq, Prod.mk.injEq] at hok
              obtain ⟨h1, h2⟩ := hok
              subst h1; subst h2
              have ih := denorm_goNorm rest (pos0 + acc.length + 2) (some '/') np' names' hg
              have hws : ¬(w ≠ ':' ∧ w ≠ '*') := by
                rcases hw with h | h <;> simp [h]
              subst hsl
              simp [denormalizePath, hws, ih, List.filter, hcs]
      · rw [if_neg hsl] at hok
        have ih := denorm_goName w pos0 prev rest (acc ++ [c]) np names hok hw
        simp only [List.filter, hcs] at *
        simp [ih, List.append_assoc, decide_eq_true_eq, hcs]

end

/-- Claim C6 (corrected): denormalization is not the exact inverse of
normalization — it substitutes each sentinel by the bare name, dropping
the `:`/`*` marker itself — but for every pattern the normalizer accepts,
`denormalizePath (normalizePath p)` yields `p` with every wildcard
sentinel character removed. -/
theorem c6_amended (p np : List Char) (names : List (List Char))
    (hok : normalizePath p = .ok (np, names)) :
    denormalizePath np names = some (p.filter fun c => ¬(c = ':' ∨ c = '*')) :=
  denorm_goNorm p 0 none np names hok

/-- Claim C6, witness: the amended round trip at `/a/:x`. -/
theorem c6_witness :
    denormalizePath ['/', 'a', '/', ':'] [['x']] = some ['/', 'a', '/', 'x'] :=
  c6_amended ['/', 'a', '/', ':', 'x'] ['/', 'a', '/', ':'] [['x']] rfl

/-- Claim C8, counterexample: after successfully registering
`/cmd/:t/s`, the param node has one literal child (the continuation
`/s`) but an empty `childIndex`, so the two are not of equal length. -/
theorem c8_counterexample :
    exC8a.2 = none ∧
    exC8a.1.wild.map (fun w => w.indices.length) = some 0 ∧
    exC8a.1.wild.map (fun w => w.literals.length) = some 1 := by
  decide

/-! ### Order lemmas for the Allow-header sort -/

/-- Strict lexicographic order is transitive. -/
theorem lexLt_trans {a b c : List Char} (hab : lexLt a b = true) (hbc : lexLt b c = true) :
    lexLt a c = true := by
  induction a generalizing b c with
  | nil =>
    cases b with
    | nil => simp [lexLt] at hab
    | cons bh bt =>
      cases c with
      | nil => simp [lexLt] at hbc
      | cons ch ct => simp [lexLt]
  | cons ah at' ih =>
    cases b with
    | nil => simp [lexLt] at hab
    | cons bh bt =>
      cases c with
      | nil => simp [lexLt] at hbc
      | cons ch ct =>
        rw [lexLt] at hab hbc ⊢
        by_cases h1 : ah = bh
        · subst h1
          rw [if_pos rfl] at hab
          by_cases h2 : ah = ch
          · subst h2
            rw [if_pos rfl] at hbc ⊢
            exact ih hab hbc
          · rw [if_neg h2] at hbc ⊢
            exact hbc
        · rw [if_neg h1] at hab
          by_cases h2 : bh = ch
          · subst h2
            rw [if_neg h1]
            exact hab
          · rw [if_neg h2] at hbc
            have hlt1 : ah < bh := of_decide_eq_true hab
            have hlt2 : bh < ch := of_decide_eq_true hbc
            have hlt : ah < ch := lt_trans hlt1 hlt2
            rw [if_neg (ne_of_lt hlt)]
            exact decide_eq_true hlt

/-- Two lists neither of which is lexicographically below the other are
equal. -/
theorem lexLt_antisymm {a b : List Char} (hab : lexLt a b = false) (hba : lexLt b a = false) :
    a = b := by
  induction a generalizing b with
  | nil =>
    cases b with
    | nil => rfl
    | cons bh bt => simp [lexLt] at hab
  | cons ah at' ih =>
    cases b with
    | nil => simp [lexLt] at hba
    | cons bh bt =>
      rw [lexLt] at hab hba
      by_cases h1 : ah = bh
      · subst h1
        rw [if_pos rfl] at hab
        rw [if_pos rfl] at hba
        rw [ih hab hba]
      · rw [if_neg h1] at hab
        rw [if_neg (fun h => h1 h.symm)] at hba
        have n1 : ¬ ah < bh := of_decide_eq_false hab
        have n2 : ¬ bh < ah := of_decide_eq_false hba
        rcases lt_or_gt_of_ne h1 with hlt | hgt
        · exact absurd hlt n1
        · exact absurd hgt n2

/-- `lexLe` is transitive. -/
theorem lexLe_trans {a b c : List Char} (hab : lexLe a b) (hbc : lexLe b c) : lexLe a c := by
  unfold lexLe at *
  cases hc : lexLt c a with
  | false => rfl
  | true =>
    cases hab2 : lexLt a b with
    | true =>
      have := lexLt_trans hc hab2
      rw [this] at hbc
      exact hbc
    | false =>
      have hEq := lexLt_antisymm hab2 hab
      subst hEq
      rw [hc] at hbc
      exact hbc

/-- Strict lexicographic order is irreflexive. -/
theorem lexLt_irrefl (a : List Char) : lexLt a a = false := by
  induction a with
  | nil => rfl
  | cons ah at' ih => rw [lexLt, if_pos rfl]; exact ih

/-- A strictly smaller list is `lexLe`. -/
theorem lexLe_of_lexLt {a b : List Char} (h : lexLt a b = true) : lexLe a b := by
  unfold lexLe
  cases hba : lexLt b a with
  | false => rfl
  | true => exact absurd (lexLt_trans h hba) (by simp [lexLt_irrefl])

/-- Inserting preserves the multiset of methods. -/
theorem goInsertSorted_perm (x : List Char) (l : List (List Char)) :
    List.Perm (goInsertSorted x l) (x :: l) := by
  induction l with
  | nil => simp [goInsertSorted]
  | cons h t ih =>
    rw [goInsertSorted]
    by_cases hx : lexLt x h = true
    · rw [if_pos hx]
    · rw [if_neg hx]
      exact ((ih.cons h).trans (List.Perm.swap x h t))

/-- Inserting into a sorted list keeps it sorted. -/
theorem goInsertSorted_sorted (x : List Char) (l : List (List Char))
    (hl : List.Pairwise lexLe l) : List.Pairwise lexLe (goInsertSorted x l) := by
  induction l with
  | nil => simp [goInsertSorted]
  | cons h t ih =>
    rw [goInsertSorted]
    rcases hl with _ | ⟨hhd, htl⟩
    by_cases hx : lexLt x h = true
    · rw [if_pos hx]
      refine List.Pairwise.cons ?_ (List.Pairwise.cons hhd htl)
      intro y hy
      rcases List.mem_cons.mp hy with rfl | hy2
      · exact lexLe_of_lexLt hx
      · exact lexLe_trans (lexLe_of_lexLt hx) (hhd y hy2)
    · rw [if_neg hx]
      refine List.Pairwise.cons ?_ (ih htl)
      intro y hy
      have hy2 := (goInsertSorted_perm x t).mem_iff.mp hy
      rcases List.mem_cons.mp hy2 with rfl | hy3
      · exact eq_false_of_ne_true hx
      · exact hhd y hy3

/-- The Go insertion sort permutes its input. -/
theorem goSort_perm_aux (l : List (List Char)) (acc : List (List Char)) :
    List.Perm (List.foldl (fun acc x => goInsertSorted x acc) acc l) (acc ++ l) := by
  induction l generalizing acc with
  | nil => simp
  | cons x xs ih =>
    have h1 := ih (goInsertSorted x acc)
    have h2 : List.Perm (goInsertSorted x acc ++ xs) ((x :: acc) ++ xs) :=
      (goInsertSorted_perm x acc).append_right xs
    have h3 : List.Perm ((x :: acc) ++ xs) (acc ++ x :: xs) := List.perm_middle.symm
    simpa using (h1.trans (h2.trans h3))

/-- The Go insertion sort sorts. -/
theorem goSort_sorted_aux (l : List (List Char)) (acc : List (List Char))
    (hacc : List.Pairwise lexLe acc) :
    List.Pairwise lexLe (List.foldl (fun acc x => goInsertSorted x acc) acc l) := by
  induction l generalizing acc with
  | nil => simpa
  | cons x xs ih => exact ih (goInsertSorted x acc) (goInsertSorted_sorted x acc hacc)

/-! ### Search never panics on safe trees -/

/-- The `literals` field weighs less than its node. -/
theorem sizeOf_literals_lt (n : Node) : sizeOf n.literals < sizeOf n := by
  obtain ⟨np, pr, t, ls, ix, w, ca, h, nm⟩ := n
  simp [Node.literals]
  omega

/-- The `wild` field weighs less than its node. -/
theorem sizeOf_wild_lt (n : Node) : sizeOf n.wild < sizeOf n := by
  obtain ⟨np, pr, t, ls, ix, w, ca, h, nm⟩ := n
  simp [Node.wild]
  omega

/-- Projection-style unfolding of `search`. -/
theorem search_eq (n : Node) (path : List Char) :
    search n path =
      (if path.isEmpty then .found n []
      else if List.isPrefixOf n.path path then
        (if (path.drop n.path.length).isEmpty then .found n []
        else
          match searchLits n.indices n.literals (path.drop n.path.length) with
          | .noMatch =>
            if (path.drop n.path.length).head? = some '/' then .noMatch
            else
              match wildOutcome n.wild (path.drop n.path.length) with
              | .inl r => r
              | .inr path2 => catchAllCheck n.catchAll path2
          | r => r)
      else
        if path.head? = some '/' then .noMatch
        else
          match wildOutcome n.wild path with
          | .inl r => r
          | .inr path2 => catchAllCheck n.catchAll path2) := by
  obtain ⟨np, pr, t, ls, ix, w, ca, h, nm⟩ := n
  rfl

/-- Projection-style unfolding of `wildAttempt`. -/
theorem wildAttempt_eq (wn : Node) (path : List Char) :
    wildAttempt wn path =
      (if (tokenSplit path).2.isEmpty then
        match wn.handle with
        | some _ => .inl (.found wn [(tokenSplit path).1])
        | none => .inr (tokenSplit path).2
      else
        match wn.literals with
        | [] => .inr (tokenSplit path).2
        | wc :: _ =>
          match search wc (tokenSplit path).2 with
          | .panicked => .inl .panicked
          | .noMatch => .inr (tokenSplit path).2
          | .found m ps => .inl (.found m ((tokenSplit path).1 :: ps))) := by
  rw [wildAttempt.eq_def]
  obtain ⟨np, pr, t, ls, ix, w, ca, h, nm⟩ := wn
  rfl

/-- Projection-style unfolding of `searchSafe`. -/
theorem searchSafe_eq (n : Node) :
    searchSafe n =
      (decide (n.indices.length ≤ n.literals.length) && searchSafeL n.literals &&
        searchSafeO n.wild && searchSafeO n.catchAll) := by
  obtain ⟨np, pr, t, ls, ix, w, ca, h, nm⟩ := n
  rfl

/-- Every member of a `searchSafeL` list is `searchSafe`. -/
theorem searchSafeL_mem {ls : List Node} (hl : searchSafeL ls = true) {c : Node}
    (hm : c ∈ ls) : searchSafe c = true := by
  induction ls with
  | nil => cases hm
  | cons a t ih =>
    rw [searchSafeL, Bool.and_eq_true] at hl
    rcases List.mem_cons.mp hm with rfl | hm2
    · exact hl.1
    · exact ih hl.2 hm2

mutual

/-- On a `searchSafe` tree, `search` never hits an out-of-bounds index. -/
theorem search_no_panic (n : Node) (path : List Char) (hs : searchSafe n = true) :
    search n path ≠ .panicked := by
  rw [searchSafe_eq] at hs
  simp only [Bool.and_eq_true, decide_eq_true_eq] at hs
  obtain ⟨⟨⟨hlen, hl⟩, hw⟩, hca⟩ := hs
  rw [search_eq]
  by_cases hpe : path.isEmpty
  · simp [hpe]
  · rw [if_neg hpe]
    by_cases hpre : List.isPrefixOf n.path path = true
    · rw [if_pos hpre]
      by_cases hp1 : (path.drop n.path.length).isEmpty
      · simp [hp1]
      · rw [if_neg hp1]
        cases hres : searchLits n.indices n.literals (path.drop n.path.length) with
        | panicked => exact absurd hres (searchLits_no_panic n.indices n.literals _ hlen hl)
        | noMatch =>
          simp only
          by_cases hsl : (path.drop n.path.length).head? = some '/'
          · simp [hsl]
          · rw [if_neg hsl]
            cases hwo : wildOutcome n.wild (path.drop n.path.length) with
            | inl r =>
              cases r with
              | panicked => exact absurd hwo (wildOutcome_no_panic n.wild _ hw)
              | noMatch => simp
              | found m ps => simp
            | inr p2 =>
              simp only
              cases hcc : n.catchAll with
              | none => simp [catchAllCheck]
              | some c => simp [catchAllCheck]
        | found m ps => simp
    · rw [if_neg hpre]
      by_cases hsl : path.head? = some '/'
      · simp [hsl]
      · rw [if_neg hsl]
        cases hwo : wildOutcome n.wild path with
        | inl r =>
          cases r with
          | panicked => exact absurd hwo (wildOutcome_no_panic n.wild _ hw)
          | noMatch => simp
          | found m ps => simp
        | inr p2 =>
          simp only
          cases hcc : n.catchAll with
          | none => simp [catchAllCheck]
          | some c => simp [catchAllCheck]
  termination_by (sizeOf n, 1)
  decreasing_by
  all_goals simp_wf
  all_goals
    first
    | exact Prod.Lex.left _ _ (sizeOf_literals_lt n)
    | exact Prod.Lex.left _ _ (sizeOf_wild_lt n)

/-- The literal scan panics only when `indices` outruns `literals`. -/
theorem searchLits_no_panic (cs : List Char) (ls : List Node) (path : List Char)
    (hlen : cs.length ≤ ls.length) (hl : searchSafeL ls = true) :
    searchLits cs ls path ≠ .panicked := by
  match cs, ls with
  | cs, [] =>
    have : cs = [] := List.eq_nil_of_length_eq_zero (Nat.le_zero.mp (by simpa using hlen))
    subst this
    simp [searchLits]
  | [], _ :: _ => simp [searchLits]
  | c :: cs, l :: lrest =>
    rw [searchLits]
    rw [searchSafeL, Bool.and_eq_true] at hl
    by_cases hh : path.head? = some c
    · rw [if_pos hh]
      cases hres : search l path with
      | panicked => exact absurd hres (search_no_panic l path hl.1)
      | noMatch =>
        exact searchLits_no_panic cs lrest path (Nat.le_of_succ_le_succ (by simpa using hlen)) hl.2
      | found m ps => simp
    · rw [if_neg hh]
      exact searchLits_no_panic cs lrest path (Nat.le_of_succ_le_succ (by simpa using hlen)) hl.2
  termination_by (sizeOf ls, 0)
  decreasing_by
  all_goals simp_wf
  all_goals
    refine Prod.Lex.left _ _ ?_
    first
    | (simp; try omega)
    | omega

/-- The wildcard attempt never panics on a safe wild child. -/
theorem wildOutcome_no_panic (w : Option Node) (path : List Char)
    (hw : searchSafeO w = true) : wildOutcome w path ≠ .inl .panicked := by
  match w with
  | none => simp [wildOutcome]
  | some wn =>
    rw [searchSafeO] at hw
    rw [wildOutcome]
    exact wildAttempt_no_panic wn path hw
  termination_by (sizeOf w, 1)
  decreasing_by
  simp_wf
  refine Prod.Lex.left _ _ ?_
  first
  | (simp; try omega)
  | omega

/-- The body of the wildcard attempt never panics on a safe wild node. -/
theorem wildAttempt_no_panic (wn : Node) (path : List Char)
    (hw : searchSafe wn = true) : wildAttempt wn path ≠ .inl .panicked := by
  rw [wildAttempt_eq]
  rw [searchSafe_eq] at hw
  simp only [Bool.and_eq_true, decide_eq_true_eq] at hw
  obtain ⟨⟨⟨hlen, hl⟩, hww⟩, hwca⟩ := hw
  by_cases hp2 : (tokenSplit path).2.isEmpty
  · rw [if_pos hp2]
    cases wn.handle with
    | none => simp
    | some hh => simp
  · rw [if_neg hp2]
    cases hwls : wn.literals with
    | nil => simp
    | cons wc wrest =>
      simp only
      cases hres : search wc (tokenSplit path).2 with
      | panicked =>
        have hmem : wc ∈ wn.literals := by rw [hwls]; exact List.mem_cons_self wc wrest
        have hsafe : searchSafe wc = true := searchSafeL_mem hl hmem
        exact absurd hres (search_no_panic wc _ hsafe)
      | noMatch => simp
      | found m ps => simp
  termination_by (sizeOf wn, 0)
  decreasing_by
  simp_wf
  exact Prod.Lex.left _ _ (lt_trans (List.sizeOf_lt_of_mem hmem) (sizeOf_literals_lt wn))

end

/-- On panic-free tables the collection loop of `allowed` computes exactly
the spec-side method list. -/
theorem collectAllowed_eq (trees : List (List Char × Node)) (path reqMethod : List Char)
    (hs : ∀ mt ∈ trees, searchSafe mt.2 = true) :
    collectAllowed trees path reqMethod = some (allowedMethodsSpec trees path reqMethod) := by
  induction trees with
  | nil => rfl
  | cons mt rest ih =>
    obtain ⟨m, t⟩ := mt
    have hst : searchSafe t = true := hs (m, t) (List.mem_cons_self _ _)
    have hsr : ∀ mt2 ∈ rest, searchSafe mt2.2 = true :=
      fun mt2 hm => hs mt2 (List.mem_cons_of_mem _ hm)
    rw [collectAllowed]
    by_cases hskip : m = reqMethod ∨ m = optionsMethod
    · rw [if_pos hskip]
      rw [ih hsr]
      have hpred : (!decide ((m, t).1 = reqMethod) && !decide ((m, t).1 = optionsMethod) &&
          hasHandlerMatch (m, t).2 path) = false := by
        rcases hskip with h | h <;> simp [h]
      simp [allowedMethodsSpec, List.filter_cons, hpred]
    · rw [if_neg hskip]
      have hm1 : ¬ m = reqMethod := fun h => hskip (Or.inl h)
      have hm2 : ¬ m = optionsMethod := fun h => hskip (Or.inr h)
      cases hres : search t path with
      | panicked => exact absurd hres (search_no_panic t path hst)
      | noMatch =>
        rw [ih hsr]
        have hmatch : hasHandlerMatch t path = false := by
          unfold hasHandlerMatch
          rw [hres]
        simp [allowedMethodsSpec, List.filter_cons, hmatch]
      | found fn ps =>
        rw [ih hsr]
        have hmatch : hasHandlerMatch t path = fn.handle.isSome := by
          unfold hasHandlerMatch
          rw [hres]
        cases hh : fn.handle.isSome with
        | false => simp [allowedMethodsSpec, List.filter_cons, hmatch, hh]
        | true => simp [allowedMethodsSpec, List.filter_cons, hmatch, hh, hm1, hm2]

/-- Claim C7 (confirmed): for a concrete path and a panic-free route
table, `allowed` returns the empty string when no method other than the
excluded one and `OPTIONS` has a handler-bearing match, and otherwise a
`", "`-join of a lexicographically sorted permutation of those methods
together with `OPTIONS`; over the table where `/doc/` is registered only
for `GET` and `POST` it yields `GET, OPTIONS, POST`. -/
theorem c7_allowed_methods :
    (∀ (r : RouterModel) (path reqMethod : List Char),
      (∀ mt ∈ r.trees, searchSafe mt.2 = true) → path ≠ ['*'] →
      (allowedMethodsSpec r.trees path reqMethod = [] →
        allowed r path reqMethod = some []) ∧
      (allowedMethodsSpec r.trees path reqMethod ≠ [] →
        ∃ l, List.Pairwise lexLe l ∧
          List.Perm l (allowedMethodsSpec r.trees path reqMethod ++ [optionsMethod]) ∧
          allowed r path reqMethod = some (joinComma l))) ∧
    allowed exC7r ['/', 'd', 'o', 'c', '/'] [] =
      some ['G', 'E', 'T', ',', ' ', 'O', 'P', 'T', 'I', 'O', 'N', 'S', ',', ' ', 'P', 'O', 'S', 'T'] ∧
    allowed exC7r ['/', 'n', 'o', 'p', 'e'] [] = some [] := by
  refine ⟨?_, by decide, by decide⟩
  intro r path req hs hstar
  have hcoll := collectAllowed_eq r.trees path req hs
  constructor
  · intro hempty
    unfold allowed
    rw [if_neg hstar, hcoll, hempty]
    simp [finishAllowed]
  · intro hne
    refine ⟨goSort (allowedMethodsSpec r.trees path req ++ [optionsMethod]), ?_, ?_, ?_⟩
    · exact goSort_sorted_aux _ [] List.Pairwise.nil
    · simpa [goSort] using goSort_perm_aux (allowedMethodsSpec r.trees path req ++ [optionsMethod]) []
    · unfold allowed
      rw [if_neg hstar, hcoll]
      simp only [Option.some.injEq]
      rw [finishAllowed, if_neg (by simpa using hne)]

/-! ### Shape of the normalizer's output -/

theorem normSuffix_tail {c : Char} {rest : List Char} (h : normSuffix (c :: rest) = true) :
    normSuffix rest = true := by
  rw [normSuffix] at h
  by_cases h1 : c = '*'
  · rw [if_pos h1] at h
    rw [List.isEmpty_iff] at h
    subst h
    rfl
  · rw [if_neg h1] at h
    by_cases h2 : c = ':'
    · rw [if_pos h2, Bool.and_eq_true] at h
      exact h.2
    · rwa [if_neg h2] at h

theorem normSuffix_drop {p : List Char} (i : Nat) (h : normSuffix p = true) :
    normSuffix (p.drop i) = true := by
  induction i generalizing p with
  | zero => simpa using h
  | succ i ih =>
    match p with
    | [] => rfl
    | c :: rest => exact ih (normSuffix_tail h)

theorem normSuffix_colon {rest : List Char} (h : normSuffix (':' :: rest) = true) :
    rest = [] ∨ rest.head? = some '/' := by
  rw [normSuffix, if_neg (by decide), if_pos rfl, Bool.and_eq_true, Bool.or_eq_true] at h
  rcases h.1 with h1 | h1
  · exact Or.inl (List.isEmpty_iff.mp h1)
  · exact Or.inr (of_decide_eq_true h1)

theorem normSuffix_star {rest : List Char} (h : normSuffix ('*' :: rest) = true) :
    rest = [] := by
  rw [normSuffix, if_pos rfl] at h
  exact List.isEmpty_iff.mp h

theorem countWild_cons (c : Char) (l : List Char) :
    countWild (c :: l) = (if c = ':' ∨ c = '*' then 1 else 0) + countWild l := by
  rw [countWild, countWild, List.countP_cons]
  by_cases h : c = ':' ∨ c = '*'
  · have hb : (decide (c = ':') || decide (c = '*')) = true := by
      rcases h with h | h <;> simp [h]
    rw [if_pos h, hb, if_pos rfl]
    omega
  · have hb : (decide (c = ':') || decide (c = '*')) = false := by
      push_neg at h
      simp [h.1, h.2]
    rw [if_neg h, hb]
    simp

theorem countWild_append (a b : List Char) :
    countWild (a ++ b) = countWild a + countWild b := by
  rw [countWild, countWild, countWild, List.countP_append]

theorem noSent_countWild {p : List Char} (h : noSent p = true) : countWild p = 0 := by
  rw [noSent, List.all_eq_true] at h
  rw [countWild, List.countP_eq_zero]
  intro c hc
  have := h c hc
  rw [Bool.and_eq_true] at this
  simp only [Bool.not_eq_true', decide_eq_false_iff_not] at this
  simp [this.1, this.2]

theorem noSent_mem {p : List Char} (h : noSent p = true) {c : Char} (hc : c ∈ p) :
    ¬(c = ':' ∨ c = '*') := by
  rw [noSent, List.all_eq_true] at h
  have := h c hc
  rw [Bool.and_eq_true] at this
  simp only [Bool.not_eq_true', decide_eq_false_iff_not] at this
  rintro (hh | hh)
  · exact this.1 hh
  · exact this.2 hh

theorem noSent_of_forall {p : List Char} (h : ∀ c ∈ p, ¬(c = ':' ∨ c = '*')) :
    noSent p = true := by
  rw [noSent, List.all_eq_true]
  intro c hc
  have := h c hc
  push_neg at this
  simp [this.1, this.2]

theorem noSent_take {p : List Char} (h : noSent p = true) (i : Nat) :
    noSent (p.take i) = true :=
  noSent_of_forall fun c hc => noSent_mem h (List.mem_of_mem_take hc)

theorem noSent_drop {p : List Char} (h : noSent p = true) (i : Nat) :
    noSent (p.drop i) = true :=
  noSent_of_forall fun c hc => noSent_mem h (List.mem_of_mem_drop hc)

mutual

/-- The normalizer scan emits a well-shaped suffix (`:` before `/` or at
the end, `*` only at the end), one collected name per sentinel, and
preserves the head character. -/
theorem norm_goNorm (p : List Char) (pos : Nat) (prev : Option Char)
    (np : List Char) (names : List (List Char))
    (hok : goNorm p pos prev = .ok (np, names)) :
    normSuffix np = true ∧ names.length = countWild np ∧ np.head? = p.head? := by
  match p with
  | [] =>
    simp only [goNorm, Except.ok.injEq, Prod.mk.injEq] at hok
    obtain ⟨h1, h2⟩ := hok
    subst h1; subst h2
    exact ⟨rfl, rfl, rfl⟩
  | c :: rest =>
    by_cases hs : c = ':' ∨ c = '*'
    · rw [goNorm, if_pos hs] at hok
      have h2 := norm_goName c pos prev rest [] np names hok hs
      exact ⟨h2.1, h2.2.1, by rw [List.head?_cons]; exact h2.2.2⟩
    · rw [goNorm, if_neg hs] at hok
      cases hg : goNorm rest (pos + 1) (some c) with
      | error e => rw [hg] at hok; exact absurd hok (by simp)
      | ok r =>
        rw [hg] at hok
        obtain ⟨np', names'⟩ := r
        simp only [Except.ok.injEq, Prod.mk.injEq] at hok
        obtain ⟨h1, h2⟩ := hok
        subst h1; subst h2
        obtain ⟨ih1, ih2, ih3⟩ := norm_goNorm rest (pos + 1) (some c) np' names' hg
        refine ⟨?_, ?_, rfl⟩
        · rw [normSuffix]
          rw [if_neg (fun hh => hs (Or.inr hh)), if_neg (fun hh => hs (Or.inl hh))]
          exact ih1
        · rw [countWild_cons, if_neg hs, ih2]
          omega

/-- The wildcard-name scan emits `[w]` or `w :: '/' :: rest`, both
well-shaped, with one name per sentinel and head `w`. -/
theorem norm_goName (w : Char) (pos0 : Nat) (prev : Option Char)
    (p : List Char) (acc : List Char) (np : List Char) (names : List (List Char))
    (hok : goName w pos0 prev p acc = .ok (np, names)) (hw : w = ':' ∨ w = '*') :
    normSuffix np = true ∧ names.length = countWild np ∧ np.head? = some w := by
  match p with
  | [] =>
    rw [goName] at hok
    by_cases he : acc.isEmpty
    · rw [if_pos he] at hok; exact absurd hok (by simp)
    · rw [if_neg he] at hok
      by_cases hm : w = '*' ∧ 1 < pos0 ∧ prev ≠ some '/'
      · rw [if_pos hm] at hok; exact absurd hok (by simp)
      · rw [if_neg hm] at hok
        simp only [Except.ok.injEq, Prod.mk.injEq] at hok
        obtain ⟨h1, h2⟩ := hok
        subst h1; subst h2
        refine ⟨?_, ?_, rfl⟩
        · rcases hw with h | h <;> subst h <;> rfl
        · rw [countWild_cons, if_pos hw]; rfl
  | c :: rest =>
    rw [goName] at hok
    by_cases hcs : c = ':' ∨ c = '*'
    · rw [if_pos hcs] at hok; exact absurd hok (by simp)
    · rw [if_neg hcs] at hok
      by_cases hsl : c = '/'
      · rw [if_pos hsl] at hok
        by_cases he : acc.isEmpty
        · rw [if_pos he] at hok; exact absurd hok (by simp)
        · rw [if_neg he] at hok
          by_cases hstar : w = '*'
          · rw [if_pos hstar] at hok
            by_cases hm : 1 < pos0 ∧ prev ≠ some '/'
            · rw [if_pos hm] at hok; exact absurd hok (by simp)
            · rw [if_neg hm] at hok; exact absurd hok (by simp)
          · rw [if_neg hstar] at hok
            cases hg : goNorm rest (pos0 + acc.length + 2) (some '/') with
            | error e => rw [hg] at hok; exact absurd hok (by simp)
            | ok r =>
              rw [hg] at hok
              obtain ⟨np', names'⟩ := r
              simp only [Except.ok.injEq, Prod.mk.injEq] at hok
              obtain ⟨h1, h2⟩ := hok
              subst h1; subst h2
              obtain ⟨ih1, ih2, ih3⟩ := norm_goNorm rest (pos0 + acc.length + 2) (some '/') np' names' hg
              have hwc : w = ':' := by
                rcases hw with h | h
                · exact h
                · exact absurd h hstar
              refine ⟨?_, ?_, rfl⟩
              · subst hwc
                rw [normSuffix, if_neg (by decide), if_pos rfl, Bool.and_eq_true]
                constructor
                · simp
                · rw [normSuffix]
                  rw [if_neg (by decide), if_neg (by decide)]
                  exact ih1
              · rw [countWild_cons, if_pos hw, countWild_cons, if_neg (by decide)]
                simp only [List.length_cons, ih2]
                omega
      · rw [if_neg hsl] at hok
        exact norm_goName w pos0 prev rest (acc ++ [c]) np names hok hw

end

/-- `normalizePath` output shape: well-shaped suffix, one name per
sentinel, head preserved. -/
theorem normalizePath_out {p np : List Char} {names : List (List Char)}
    (hok : normalizePath p = .ok (np, names)) :
    normSuffix np = true ∧ names.length = countWild np ∧ np.head? = p.head? :=
  norm_goNorm p 0 none np names hok

/-! ### The longest common prefix -/

theorem lcp_le_left (a b : List Char) : longestCommonPrefix a b ≤ a.length := by
  induction a generalizing b with
  | nil => rw [longestCommonPrefix.eq_def]; cases b <;> simp
  | cons x xs ih =>
    cases b with
    | nil => rw [longestCommonPrefix.eq_def]; simp
    | cons y ys =>
      rw [longestCommonPrefix]
      by_cases h : x = y
      · rw [if_pos h]
        have := ih ys
        simp only [List.length_cons]
        omega
      · rw [if_neg h]; simp

theorem lcp_le_right (a b : List Char) : longestCommonPrefix a b ≤ b.length := by
  induction a generalizing b with
  | nil => rw [longestCommonPrefix.eq_def]; cases b <;> simp
  | cons x xs ih =>
    cases b with
    | nil => rw [longestCommonPrefix.eq_def]; simp
    | cons y ys =>
      rw [longestCommonPrefix]
      by_cases h : x = y
      · rw [if_pos h]
        have := ih ys
        simp only [List.length_cons]
        omega
      · rw [if_neg h]; simp

theorem lcp_take_eq (a b : List Char) :
    a.take (longestCommonPrefix a b) = b.take (longestCommonPrefix a b) := by
  induction a generalizing b with
  | nil => rw [longestCommonPrefix.eq_def]; cases b <;> simp
  | cons x xs ih =>
    cases b with
    | nil => rw [longestCommonPrefix.eq_def]; simp
    | cons y ys =>
      rw [longestCommonPrefix]
      by_cases h : x = y
      · rw [if_pos h]
        subst h
        rw [Nat.add_comm 1 (longestCommonPrefix xs ys), List.take_succ_cons,
          List.take_succ_cons, ih ys]
      · rw [if_neg h]; simp

theorem lcp_pos {a b : List Char} (ha : a ≠ []) (h : a.head? = b.head?) :
    0 < longestCommonPrefix a b := by
  match a, b with
  | x :: xs, y :: ys =>
    simp only [List.head?_cons, Option.some.injEq] at h
    rw [longestCommonPrefix, if_pos h]
    omega
  | x :: xs, [] => simp at h
  | [], _ => exact absurd rfl ha

theorem head?_take {l : List Char} {i : Nat} (h : 0 < i) : (l.take i).head? = l.head? := by
  match l, i with
  | [], i => rw [List.take_nil]
  | c :: rest, i + 1 => simp

/-! ### `findNextWildcard` -/

theorem findNextWildcard_none {p : List Char} (h : findNextWildcard p = none) :
    noSent p = true := by
  induction p with
  | nil => rfl
  | cons c rest ih =>
    rw [findNextWildcard] at h
    by_cases hs : c = ':' ∨ c = '*'
    · rw [if_pos hs] at h; exact absurd h (by simp)
    · rw [if_neg hs] at h
      cases hr : findNextWildcard rest with
      | none =>
        push_neg at hs
        rw [noSent, List.all_cons, Bool.and_eq_true]
        exact ⟨by simp [hs.1, hs.2], ih hr⟩
      | some q => rw [hr] at h; exact absurd h (by simp)

theorem findNextWildcard_some {p : List Char} {w : Char} {i : Nat}
    (h : findNextWildcard p = some (w, i)) :
    i < p.length ∧ p.get? i = some w ∧ (w = ':' ∨ w = '*') ∧ noSent (p.take i) = true := by
  induction p generalizing i with
  | nil => exact absurd h (by simp [findNextWildcard])
  | cons c rest ih =>
    rw [findNextWildcard] at h
    by_cases hs : c = ':' ∨ c = '*'
    · rw [if_pos hs] at h
      simp only [Option.some.injEq, Prod.mk.injEq] at h
      obtain ⟨h1, h2⟩ := h
      subst h1; subst h2
      exact ⟨by simp, rfl, hs, rfl⟩
    · rw [if_neg hs] at h
      cases hr : findNextWildcard rest with
      | none => rw [hr] at h; exact absurd h (by simp)
      | some q =>
        rw [hr] at h
        obtain ⟨w', i'⟩ := q
        simp only [Option.map_some', Option.some.injEq, Prod.mk.injEq] at h
        obtain ⟨h1, h2⟩ := h
        subst h1; subst h2
        obtain ⟨ih1, ih2, ih3, ih4⟩ := ih hr
        refine ⟨by simp; omega, by simpa using ih2, ih3, ?_⟩
        rw [List.take_succ_cons, noSent, List.all_cons, Bool.and_eq_true]
        push_neg at hs
        exact ⟨by simp [hs.1, hs.2], ih4⟩

theorem findNextWildcard_head {p : List Char} {c : Char} (hc : p.head? = some c)
    (hs : c = ':' ∨ c = '*') : findNextWildcard p = some (c, 0) := by
  match p with
  | x :: rest =>
    simp only [List.head?_cons, Option.some.injEq] at hc
    subst hc
    rw [findNextWildcard, if_pos hs]

theorem get?_drop_decomp {l : List α} {i : Nat} {x : α} (h : l.get? i = some x) :
    l.drop i = x :: l.drop (i + 1) := by
  induction l generalizing i with
  | nil => simp at h
  | cons c rest ih =>
    cases i with
    | zero =>
      simp only [List.get?_cons_zero, Option.some.injEq] at h
      subst h
      rfl
    | succ i =>
      rw [List.get?_cons_succ] at h
      simpa using ih h

/-! ### List facts for the child-reordering proofs -/

theorem zip_take_my (a : List α) (b : List β) (n : Nat) :
    (a.zip b).take n = (a.take n).zip (b.take n) := by
  induction a generalizing b n with
  | nil => simp
  | cons x xs ih =>
    cases b with
    | nil => simp
    | cons y ys =>
      cases n with
      | zero => simp
      | succ n => simp [List.zip_cons_cons, ih]

theorem zip_drop_my (a : List α) (b : List β) (n : Nat) :
    (a.zip b).drop n = (a.drop n).zip (b.drop n) := by
  induction a generalizing b n with
  | nil => simp
  | cons x xs ih =>
    cases b with
    | nil => simp
    | cons y ys =>
      cases n with
      | zero => simp
      | succ n => simp [List.zip_cons_cons, ih]

theorem zip_append_my {a c : List α} {b d : List β} (h : a.length = b.length) :
    (a ++ c).zip (b ++ d) = a.zip b ++ c.zip d := by
  induction a generalizing b with
  | nil =>
    cases b with
    | nil => simp
    | cons y ys => simp at h
  | cons x xs ih =>
    cases b with
    | nil => simp at h
    | cons y ys =>
      simp only [List.length_cons, Nat.succ.injEq] at h
      simp [List.zip_cons_cons, ih h]

theorem zip_set_right (a : List α) (b : List β) (i : Nat) (x : α) (y : β)
    (hx : a.get? i = some x) : a.zip (b.set i y) = (a.zip b).set i (x, y) := by
  induction a generalizing b i with
  | nil => simp at hx
  | cons c cs ih =>
    cases b with
    | nil => simp
    | cons d ds =>
      cases i with
      | zero =>
        simp only [List.get?_cons_zero, Option.some.injEq] at hx
        subst hx
        simp [List.zip_cons_cons]
      | succ i =>
        rw [List.get?_cons_succ] at hx
        simp [List.zip_cons_cons, ih ds i hx]

theorem all_set_my (l : List α) (p : α → Bool) (i : Nat) (x : α)
    (hl : l.all p = true) (hx : p x = true) : (l.set i x).all p = true := by
  induction l generalizing i with
  | nil => simpa using hl
  | cons c cs ih =>
    rw [List.all_cons, Bool.and_eq_true] at hl
    cases i with
    | zero => simp [hx, hl.2]
    | succ i => simp [hl.1, ih i hl.2]

theorem all_perm {l l' : List α} (h : l.Perm l') (p : α → Bool) : l.all p = l'.all p := by
  induction h with
  | nil => rfl
  | cons x h ih => simp [List.all_cons, ih]
  | swap x y l => simp only [List.all_cons]; cases p x <;> cases p y <;> simp
  | trans h1 h2 ih1 ih2 => rw [ih1, ih2]

theorem set_append_len (l₁ l₂ : List α) (x y : α) :
    (l₁ ++ x :: l₂).set l₁.length y = l₁ ++ y :: l₂ := by
  induction l₁ with
  | nil => rfl
  | cons c cs ih => simpa using ih

theorem set_decomp {l : List α} {i : Nat} {x : α} (hx : l.get? i = some x) (y : α) :
    l.set i y = l.take i ++ y :: l.drop (i + 1) := by
  obtain ⟨hi, -⟩ := List.get?_eq_some.mp hx
  rw [List.set_eq_take_append_cons_drop, if_pos hi]

theorem list_decomp {l : List α} {i : Nat} {x : α} (hx : l.get? i = some x) :
    l = l.take i ++ x :: l.drop (i + 1) := by
  conv_lhs => rw [← List.take_append_drop i l]
  rw [get?_drop_decomp hx]

theorem perm_cons_of_get? {l : List α} {i : Nat} {x : α} (hx : l.get? i = some x) :
    l.Perm (x :: (l.take i ++ l.drop (i + 1))) := by
  conv_lhs => rw [list_decomp hx]
  exact List.perm_middle

/-! ### The rotation performed by `incrementLiteralPrio` -/

theorem drop_take_one_append {l : List α} {q : Nat} (hq : q < l.length) :
    (l.drop q).take 1 ++ l.drop (q + 1) = l.drop q := by
  obtain ⟨x, hx⟩ : ∃ x, l.get? q = some x := ⟨_, List.get?_eq_get hq⟩
  rw [get?_drop_decomp hx]
  rfl

theorem rotate_self (l : List α) (q : Nat) (hq : q < l.length) : rotateTo l q q = l := by
  rw [rotateTo, Nat.sub_self]
  simp only [List.take_zero, List.append_nil, List.append_assoc]
  rw [drop_take_one_append hq, List.take_append_drop]

theorem rotate_length {l : List α} {pos q : Nat} (hpq : pos ≤ q) (hq : q < l.length) :
    (rotateTo l pos q).length = l.length := by
  rw [rotateTo]
  simp only [List.length_append, List.length_take, List.length_drop]
  omega

theorem rotate_get_pos {l : List α} {pos q : Nat} (hpq : pos ≤ q) (hq : q < l.length) :
    (rotateTo l pos q).get? pos = l.get? q := by
  rw [rotateTo]
  have hl1 : (l.take pos).length = pos := by
    rw [List.length_take]
    omega
  simp only [List.append_assoc]
  rw [List.get?_append_right (le_of_eq hl1), hl1, Nat.sub_self]
  have hlen1 : ((l.drop q).take 1).length = 1 := by
    rw [List.length_take, List.length_drop]
    omega
  rw [List.get?_append (by omega), List.get?_take (by omega)]
  rw [List.get?_drop]
  rfl

theorem rotate_perm {l : List α} {pos q : Nat} (hpq : pos ≤ q) (hq : q < l.length) :
    (rotateTo l pos q).Perm l := by
  obtain ⟨x, hx⟩ : ∃ x, l.get? q = some x := ⟨_, List.get?_eq_get hq⟩
  have hdq : l.drop q = x :: l.drop (q + 1) := get?_drop_decomp hx
  have hB : (l.drop q).take 1 = [x] := by rw [hdq]; rfl
  have hdrop : (l.drop pos).drop (q - pos) = l.drop q := by
    rw [List.drop_drop]
    congr 1
    omega
  have hdecomp : l = l.take pos ++ ((l.drop pos).take (q - pos) ++ (x :: l.drop (q + 1))) := by
    conv_lhs => rw [← List.take_append_drop pos l]
    congr 1
    conv_lhs => rw [← List.take_append_drop (q - pos) (l.drop pos)]
    rw [hdrop, hdq]
  have h1 : rotateTo l pos q =
      l.take pos ++ (x :: ((l.drop pos).take (q - pos) ++ l.drop (q + 1))) := by
    rw [rotateTo, hB]
    simp [List.append_assoc]
  rw [h1]
  conv_rhs => rw [hdecomp]
  exact List.Perm.append_left _ List.perm_middle.symm

theorem set_append_of_len {l₁ l₂ : List α} {n : Nat} (h : l₁.length = n) (x y : α) :
    (l₁ ++ x :: l₂).set n y = l₁ ++ y :: l₂ := by
  subst h
  exact set_append_len l₁ l₂ x y

theorem drop_append_of_len {l₁ l₂ : List α} {n : Nat} (h : l₁.length = n) :
    (l₁ ++ l₂).drop n = l₂ := by
  subst h
  exact List.drop_left l₁ l₂

theorem rotate_step {cs : List α} {q pos : Nat} {prev cur : α}
    (hpos : pos ≤ q) (hq : q + 1 < cs.length)
    (hprev : cs.get? q = some prev) (hcur : cs.get? (q + 1) = some cur) :
    rotateTo ((cs.set q cur).set (q + 1) prev) pos q = rotateTo cs pos (q + 1) := by
  have hql : q < cs.length := by omega
  have hTlen : (cs.take q).length = q := by
    rw [List.length_take]
    omega
  have hD2 : cs.drop (q + 1) = cur :: cs.drop (q + 2) := get?_drop_decomp hcur
  have hT : cs = cs.take q ++ prev :: cur :: cs.drop (q + 2) := by
    conv_lhs => rw [← List.take_append_drop q cs]
    rw [get?_drop_decomp hprev, hD2]
  have h1 : cs.set q cur = cs.take q ++ cur :: cur :: cs.drop (q + 2) := by
    conv_lhs => rw [hT]
    exact set_append_of_len hTlen prev cur
  have hassoc : cs.take q ++ cur :: cur :: cs.drop (q + 2) =
      (cs.take q ++ [cur]) ++ cur :: cs.drop (q + 2) := by simp
  have hlen2 : (cs.take q ++ [cur]).length = q + 1 := by simp [hTlen]
  have h2 : (cs.set q cur).set (q + 1) prev =
      cs.take q ++ cur :: prev :: cs.drop (q + 2) := by
    rw [h1, hassoc, set_append_of_len hlen2 cur prev]
    simp
  rw [h2, rotateTo, rotateTo]
  have htakepos : (cs.take q ++ cur :: prev :: cs.drop (q + 2)).take pos = cs.take pos := by
    rw [List.take_append_eq_append_take, hTlen]
    have h0 : pos - q = 0 := by omega
    rw [h0, List.take_zero, List.append_nil, List.take_take]
    congr 1
    omega
  have hdropq : (cs.take q ++ cur :: prev :: cs.drop (q + 2)).drop q =
      cur :: prev :: cs.drop (q + 2) := drop_append_of_len hTlen
  have hdroppos : (cs.take q ++ cur :: prev :: cs.drop (q + 2)).drop pos =
      (cs.take q).drop pos ++ cur :: prev :: cs.drop (q + 2) := by
    rw [List.drop_append_eq_append_drop, hTlen]
    have h0 : pos - q = 0 := by omega
    rw [h0, List.drop_zero]
  have hdropq1 : (cs.take q ++ cur :: prev :: cs.drop (q + 2)).drop (q + 1) =
      prev :: cs.drop (q + 2) := by
    have hx : cs.take q ++ cur :: prev :: cs.drop (q + 2) =
        (cs.take q ++ [cur]) ++ prev :: cs.drop (q + 2) := by simp
    rw [hx]
    exact drop_append_of_len hlen2
  have hdlen : ((cs.take q).drop pos).length = q - pos := by
    rw [List.length_drop, hTlen]
  have htakeblock : ((cs.take q).drop pos ++ cur :: prev :: cs.drop (q + 2)).take (q - pos) =
      (cs.take q).drop pos := by
    rw [List.take_append_eq_append_take, hdlen, Nat.sub_self, List.take_zero,
      List.append_nil, List.take_all_of_le (le_of_eq hdlen)]
  rw [htakepos, hdropq, hdroppos, hdropq1, htakeblock]
  have hrtake1 : (cs.drop (q + 1)).take 1 = [cur] := by
    rw [hD2]
    rfl
  have hrblock : (cs.drop pos).take (q + 1 - pos) = (cs.take q).drop pos ++ [prev] := by
    have hsplit : cs.drop pos = (cs.take q).drop pos ++ cs.drop q := by
      conv_lhs => rw [← List.take_append_drop q cs]
      rw [List.drop_append_eq_append_drop, hTlen]
      have h0 : pos - q = 0 := by omega
      rw [h0, List.drop_zero]
    rw [hsplit, List.take_append_eq_append_take, hdlen]
    rw [List.take_all_of_le (by omega : ((cs.take q).drop pos).length ≤ q + 1 - pos)]
    congr 1
    have h1' : q + 1 - pos - (q - pos) = 1 := by omega
    rw [h1', get?_drop_decomp hprev]
    rfl
  rw [hrtake1, hrblock]
  simp [List.append_assoc]


/-! ### Specification of `moveUp` and `incrementLiteralPrio` -/

theorem moveUp_spec (prio : Nat) (q : Nat) : ∀ (cs : List Node) (cs2 : List Node) (pos : Nat),
    q < cs.length → moveUp prio cs q = (cs2, pos) →
    pos ≤ q ∧ cs2 = rotateTo cs pos q := by
  induction q with
  | zero =>
    intro cs cs2 pos hq h
    rw [moveUp] at h
    simp only [Prod.mk.injEq] at h
    obtain ⟨h1, h2⟩ := h
    subst h1; subst h2
    exact ⟨Nat.le_refl 0, (rotate_self cs 0 hq).symm⟩
  | succ q ih =>
    intro cs cs2 pos hq h
    rw [moveUp] at h
    have hq1 : q < cs.length := by omega
    obtain ⟨prev, hprev⟩ : ∃ x, cs.get? q = some x := ⟨_, List.get?_eq_get hq1⟩
    obtain ⟨cur, hcur⟩ : ∃ x, cs.get? (q + 1) = some x := ⟨_, List.get?_eq_get hq⟩
    rw [hprev, hcur] at h
    replace h : (if prev.priority < prio then
        moveUp prio ((cs.set q cur).set (q + 1) prev) q else (cs, q + 1)) = (cs2, pos) := h
    by_cases hlt : prev.priority < prio
    · rw [if_pos hlt] at h
      have hlen : ((cs.set q cur).set (q + 1) prev).length = cs.length := by simp
      have hq' : q < ((cs.set q cur).set (q + 1) prev).length := by omega
      obtain ⟨hpos, hrot⟩ := ih _ cs2 pos hq' h
      refine ⟨by omega, ?_⟩
      rw [hrot]
      exact rotate_step hpos hq hprev hcur
    · rw [if_neg hlt] at h
      simp only [Prod.mk.injEq] at h
      obtain ⟨h1, h2⟩ := h
      subst h1; subst h2
      exact ⟨Nat.le_refl _, (rotate_self cs (q + 1) hq).symm⟩

theorem incPrio_spec (np : List Char) (pr : Nat) (t : NType) (ls : List Node) (ix : List Char)
    (w ca : Option Node) (h : Option Nat) (nm : List (List Char)) (j : Nat)
    (hj : j < ls.length) (hjx : j < ix.length) :
    ∃ c2 pos,
      ls.get? j = some c2 ∧ pos ≤ j ∧
      incrementLiteralPrio (.mk np pr t ls ix w ca h nm) j =
        some (.mk np pr t (rotateTo (ls.set j (bumpPrio c2)) pos j)
          (rotateTo ix pos j) w ca h nm, pos) := by
  obtain ⟨c2, hc2⟩ : ∃ x, ls.get? j = some x := ⟨_, List.get?_eq_get hj⟩
  obtain ⟨m1, m2, hmu⟩ : ∃ m1 m2, moveUp (bumpPrio c2).priority (ls.set j (bumpPrio c2)) j = (m1, m2) :=
    ⟨_, _, rfl⟩
  have hjset : j < (ls.set j (bumpPrio c2)).length := by
    rw [List.length_set]
    exact hj
  obtain ⟨hm2, hrot⟩ := moveUp_spec (bumpPrio c2).priority j _ m1 m2 hjset hmu
  refine ⟨c2, m2, hc2, hm2, ?_⟩
  rw [incrementLiteralPrio, hc2]
  simp only [hmu, hrot]
  by_cases hne : m2 ≠ j
  · rw [if_pos hne]
    rfl
  · rw [if_neg hne]
    push_neg at hne
    subst hne
    rw [rotate_self ix m2 hjx]

/-! ### Boolean plumbing for the invariant -/

theorem nodupB_iff (l : List Char) : nodupB l = true ↔ l.Nodup := by
  induction l with
  | nil => simp [nodupB]
  | cons c cs ih =>
    rw [nodupB, Bool.and_eq_true, List.nodup_cons]
    constructor
    · rintro ⟨h1, h2⟩
      rw [Bool.not_eq_true'] at h1
      refine ⟨?_, ih.mp h2⟩
      intro hm
      rw [show cs.contains c = true by simpa using hm] at h1
      cases h1
    · rintro ⟨h1, h2⟩
      refine ⟨?_, ih.mpr h2⟩
      rw [Bool.not_eq_true']
      simpa using h1

theorem wfL_eq_all (d : Nat) (l : List Node) : wfL d l = l.all (fun c => wfNode d c) := by
  induction l with
  | nil => rw [wfL, List.all_nil]
  | cons c cs ih => rw [wfL, List.all_cons, ih]

theorem prioOkL_eq_all (l : List Node) : prioOkL l = l.all (fun c => prioOk c) := by
  induction l with
  | nil => rw [prioOkL, List.all_nil]
  | cons c cs ih => rw [prioOkL, List.all_cons, ih]

theorem alignOkL_eq_all (l : List Node) : alignOkL l = l.all (fun c => alignOk c) := by
  induction l with
  | nil => rw [alignOkL, List.all_nil]
  | cons c cs ih => rw [alignOkL, List.all_cons, ih]

theorem searchSafeL_eq_all (l : List Node) : searchSafeL l = l.all (fun c => searchSafe c) := by
  induction l with
  | nil => rw [searchSafeL, List.all_nil]
  | cons c cs ih => rw [searchSafeL, List.all_cons, ih]

theorem countHandlersL_append (a b : List Node) :
    countHandlersL (a ++ b) = countHandlersL a + countHandlersL b := by
  induction a with
  | nil => simp only [List.nil_append, countHandlersL, Nat.zero_add]
  | cons c cs ih =>
    rw [List.cons_append]
    simp only [countHandlersL]
    omega

theorem countHandlersL_perm {l l' : List Node} (h : l.Perm l') :
    countHandlersL l = countHandlersL l' := by
  induction h with
  | nil => rfl
  | cons x _ ih => simp only [countHandlersL]; omega
  | swap x y l => simp only [countHandlersL]; omega
  | trans _ _ ih1 ih2 => omega

theorem countHandlers_bump (c : Node) : countHandlers (bumpPrio c) = countHandlers c := by
  obtain ⟨np, pr, t, ls, ix, w, ca, h, nm⟩ := c
  rw [bumpPrio]
  simp only [countHandlers]

theorem path_bump (c : Node) : (bumpPrio c).path = c.path := by
  obtain ⟨np, pr, t, ls, ix, w, ca, h, nm⟩ := c
  rfl

theorem nType_bump (c : Node) : (bumpPrio c).nType = c.nType := by
  obtain ⟨np, pr, t, ls, ix, w, ca, h, nm⟩ := c
  rfl

theorem priority_bump (c : Node) : (bumpPrio c).priority = c.priority + 1 := by
  obtain ⟨np, pr, t, ls, ix, w, ca, h, nm⟩ := c
  rfl

theorem wfCore_bump {d : Nat} {n : Node} (ht : n.nType = .static ∨ n.nType = .root) :
    wfCore d (bumpPrio n) = wfCore d n := by
  obtain ⟨np, pr, t, ls, ix, w, ca, h, nm⟩ := n
  rcases ht with ht | ht <;> simp only [Node.nType] at ht <;> subst ht <;> rfl

theorem wfNode_mk (d : Nat) (np : List Char) (pr : Nat) (t : NType) (ls : List Node)
    (ix : List Char) (w ca : Option Node) (h : Option Nat) (nm : List (List Char)) :
    wfNode d (.mk np pr t ls ix w ca h nm) =
      ((match t with
       | .static =>
         noSent np && alignedB ix ls && nodupB ix &&
           decide (pr = countHandlers (.mk np pr t ls ix w ca h nm))
       | .root =>
         noSent np && alignedB ix ls && nodupB ix &&
           decide (pr = countHandlers (.mk np pr t ls ix w ca h nm))
       | .param =>
         decide (np = [':']) && decide (ls.length ≤ 1) && decide (pr = 1) &&
           (ix.isEmpty || alignedB ix ls) && nodupB ix && headsSlash ls &&
           w.isNone && ca.isNone
       | .catchAll =>
         decide (np = ['*']) && ls.isEmpty && ix.isEmpty && w.isNone && ca.isNone &&
           h.isSome && decide (pr = 1)) &&
      noSent ix && allStatic ls &&
      (!h.isSome || decide (nm.length = d)) &&
      (match w with | none => true | some wn => decide (wn.nType = .param)) &&
      (match ca with | none => true | some cn => decide (cn.nType = .catchAll)) &&
      wfL d ls && wfO (d + 1) w && wfO (d + 1) ca) := rfl

theorem wfCore_mk (d : Nat) (np : List Char) (pr : Nat) (t : NType) (ls : List Node)
    (ix : List Char) (w ca : Option Node) (h : Option Nat) (nm : List (List Char)) :
    wfCore d (.mk np pr t ls ix w ca h nm) =
      ((match t with
       | .static => noSent np && alignedB ix ls && nodupB ix
       | .root => noSent np && alignedB ix ls && nodupB ix
       | .param =>
         decide (np = [':']) && decide (ls.length ≤ 1) && decide (pr = 1) &&
           (ix.isEmpty || alignedB ix ls) && nodupB ix && headsSlash ls &&
           w.isNone && ca.isNone
       | .catchAll =>
         decide (np = ['*']) && ls.isEmpty && ix.isEmpty && w.isNone && ca.isNone &&
           h.isSome && decide (pr = 1)) &&
      noSent ix && allStatic ls &&
      (!h.isSome || decide (nm.length = d)) &&
      (match w with | none => true | some wn => decide (wn.nType = .param)) &&
      (match ca with | none => true | some cn => decide (cn.nType = .catchAll)) &&
      wfL d ls && wfO (d + 1) w && wfO (d + 1) ca) := rfl

theorem prOk_mk (np : List Char) (pr : Nat) (t : NType) (ls : List Node)
    (ix : List Char) (w ca : Option Node) (h : Option Nat) (nm : List (List Char)) :
    prOk (.mk np pr t ls ix w ca h nm) =
      (match t with
      | .static => decide (pr = countHandlers (.mk np pr t ls ix w ca h nm))
      | .root => decide (pr = countHandlers (.mk np pr t ls ix w ca h nm))
      | .param => true
      | .catchAll => true) := rfl

theorem wf_split (d : Nat) (n : Node) : wfNode d n = (wfCore d n && prOk n) := by
  obtain ⟨np, pr, t, ls, ix, w, ca, h, nm⟩ := n
  rw [Bool.eq_iff_iff]
  rw [wfNode_mk, wfCore_mk, prOk_mk]
  cases t <;>
    simp only [Bool.and_eq_true, Bool.and_true] <;>
    tauto

/-! ### `insertChild` builds well-formed chains -/

theorem noSent_nil : noSent ([] : List Char) = true := rfl

theorem headsSlash_nil : headsSlash ([] : List Node) = true := rfl

theorem insertChild_fresh (fuel : Nat) :
    ∀ (path : List Char) (d : Nat) (t : NType) (handle : Option Nat)
      (names : List (List Char)) (n' : Node),
    path.length < fuel → path ≠ [] →
    (∀ c, path.head? = some c → ¬(c = ':' ∨ c = '*')) →
    normSuffix path = true →
    names.length = d + countWild path →
    handle.isSome = true →
    (t = .static ∨ t = .root) →
    insertChild fuel (.mk [] 1 t [] [] none none none []) path handle names = (n', none) →
    wfNode d n' = true ∧ countHandlers n' = 1 ∧ n'.nType = t ∧
      n'.path.head? = path.head? ∧ n'.priority = 1 := by
  induction fuel with
  | zero => intro path d t handle names n' hfuel; omega
  | succ fuel ih =>
    intro path d t handle names n' hfuel hne hsent hns hnames hh ht hres
    cases hfw : findNextWildcard path with
    | none =>
      have hnos : noSent path = true := findNextWildcard_none hfw
      rw [insertChild, hfw] at hres
      simp only [Prod.mk.injEq] at hres
      obtain ⟨hn', -⟩ := hres
      subst hn'
      have hcount : countHandlers (.mk path 1 t [] [] none none handle names) = 1 := by
        rw [countHandlers]
        simp [countHandlersL, countHandlersO, hh]
      refine ⟨?_, hcount, rfl, rfl, rfl⟩
      have hnm : names.length = d := by
        rw [noSent_countWild hnos] at hnames
        omega
      rw [wfNode_mk]
      rcases ht with ht | ht <;> subst ht <;>
        simp [hnos, alignedB, nodupB, hcount, allStatic, hh, hnm, wfL, wfO, noSent_nil]
    | some q =>
      obtain ⟨wc, i⟩ := q
      obtain ⟨hi, hgeti, hwcs, htake⟩ := findNextWildcard_some hfw
      have h0i : 0 < i := by
        rcases Nat.eq_zero_or_pos i with h0 | h0
        · subst h0
          have hhead : path.head? = some wc := by
            cases path with
            | nil => simp at hi
            | cons c rest => simpa using hgeti
          exact absurd hwcs (hsent wc hhead)
        · exact h0
      have hdrop : path.drop i = wc :: path.drop (i + 1) := get?_drop_decomp hgeti
      have hns' : normSuffix (path.drop i) = true := normSuffix_drop i hns
      have hcw : countWild path = 1 + countWild (path.drop (i + 1)) := by
        conv_lhs => rw [← List.take_append_drop i path]
        rw [countWild_append, noSent_countWild htake, hdrop, countWild_cons, if_pos hwcs]
        omega
      have hheadtake : (path.take i).head? = path.head? := head?_take h0i
      rcases hwcs with hwc | hwc
      · -- parameter wildcard
        subst hwc
        rw [hdrop] at hns'
        cases hD : path.drop (i + 1) with
        | nil =>
          rw [hD] at hdrop
          have hlen1 : ¬ 1 < (path.drop i).length := by
            rw [hdrop]
            simp
          rw [List.length_drop] at hlen1
          have hcomp : insertChild (fuel + 1) (.mk [] 1 t [] [] none none none [])
              path handle names =
              (.mk (path.take i) 1 t [] []
                (some (.mk [':'] 1 .param [] [] none none handle names)) none none [], none) := by
            rw [insertChild, hfw]
            simp [h0i, hlen1]
          rw [hcomp] at hres
          simp only [Prod.mk.injEq] at hres
          obtain ⟨hn', -⟩ := hres
          subst hn'
          have hnm1 : names.length = d + 1 := by
            rw [hcw, hD] at hnames
            simpa using hnames
          have hwfwild : wfNode (d + 1) (.mk [':'] 1 .param [] [] none none handle names) = true := by
            rw [wfNode_mk]
            simp [wfL, wfO, noSent_nil, allStatic, headsSlash_nil, nodupB, alignedB, hh, hnm1]
          have hcwild : countHandlers (.mk [':'] 1 .param [] [] none none handle names) = 1 := by
            rw [countHandlers]
            simp [countHandlersL, countHandlersO, hh]
          have hcount : countHandlers (.mk (path.take i) 1 t [] []
              (some (.mk [':'] 1 .param [] [] none none handle names)) none none []) = 1 := by
            rw [countHandlers]
            simp only [countHandlersL, countHandlersO]
            rw [hcwild]
            rfl
          refine ⟨?_, hcount, rfl, by simp only [Node.path]; exact hheadtake, rfl⟩
          rw [wfNode_mk]
          rcases ht with ht | ht <;> subst ht <;>
            simp [htake, alignedB, nodupB, hcount, wfL, wfO, noSent_nil, allStatic,
              Node.nType, hwfwild]
        | cons c0 D' =>
          have hlen1 : 1 < (path.drop i).length := by
            rw [hdrop, hD]
            simp
          rw [List.length_drop] at hlen1
          have hrest : (path.drop i).drop 1 = path.drop (i + 1) := by
            rw [List.drop_drop]
            try congr 1
            try omega
          obtain ⟨r1, r2, hr⟩ : ∃ r1 r2,
              insertChild fuel (.mk [] 1 .static [] [] none none none [])
                (path.drop (i + 1)) handle names = (r1, r2) := ⟨_, _, rfl⟩
          have hcomp : insertChild (fuel + 1) (.mk [] 1 t [] [] none none none [])
              path handle names =
              (.mk (path.take i) 1 t [] []
                (some (.mk [':'] 1 .param [r1] [] none none none [])) none none [], r2) := by
            rw [insertChild, hfw]
            simp [h0i, hlen1, hrest, hr]
          rw [hcomp] at hres
          simp only [Prod.mk.injEq] at hres
          obtain ⟨hn', hr2⟩ := hres
          subst hn'
          have hDhead : (path.drop (i + 1)).head? = some '/' := by
            rcases normSuffix_colon hns' with hcon | hcon
            · rw [hD] at hcon; cases hcon
            · exact hcon
          obtain ⟨ihwf, ihcount, ihtype, ihhead, ihprio⟩ :=
            ih (path.drop (i + 1)) (d + 1) .static handle names r1
              (by have := List.length_drop (i + 1) path; omega)
              (by rw [hD]; simp)
              (by intro c hc; rw [hDhead, Option.some.injEq] at hc; subst hc; decide)
              (normSuffix_drop (i + 1) hns)
              (by rw [hcw] at hnames; omega)
              hh (Or.inl rfl) (by rw [hr, hr2])
          have hr1head : r1.path.head? = some '/' := by rw [ihhead, hDhead]
          have hwfwild : wfNode (d + 1) (.mk [':'] 1 .param [r1] [] none none none []) = true := by
            rw [wfNode_mk]
            simp [wfL, wfO, noSent_nil, allStatic, headsSlash, nodupB, alignedB,
              hr1head, ihtype, ihwf]
          have hcwild : countHandlers (.mk [':'] 1 .param [r1] [] none none none []) = 1 := by
            rw [countHandlers]
            simp [countHandlersL, countHandlersO, ihcount]
          have hcount : countHandlers (.mk (path.take i) 1 t [] []
              (some (.mk [':'] 1 .param [r1] [] none none none [])) none none []) = 1 := by
            rw [countHandlers]
            simp only [countHandlersL, countHandlersO]
            rw [hcwild]
            rfl
          refine ⟨?_, hcount, rfl, by simp only [Node.path]; exact hheadtake, rfl⟩
          rw [wfNode_mk]
          rcases ht with ht | ht <;> subst ht <;>
            simp [htake, alignedB, nodupB, hcount, wfL, wfO, noSent_nil, allStatic,
              Node.nType, hwfwild]
      · -- catch-all wildcard
        subst hwc
        have hD : path.drop (i + 1) = [] := by
          rw [hdrop] at hns'
          exact normSuffix_star hns'
        by_cases hlast : i = path.length - 1
        · have hcomp : insertChild (fuel + 1) (.mk [] 1 t [] [] none none none [])
              path handle names =
              (.mk (path.take i) 1 t [] [] none
                (some (.mk ['*'] 1 .catchAll [] [] none none handle names)) none [], none) := by
            rw [insertChild, hfw]
            simp [hlast]
          rw [hcomp] at hres
          simp only [Prod.mk.injEq] at hres
          obtain ⟨hn', -⟩ := hres
          subst hn'
          have hnm1 : names.length = d + 1 := by
            rw [hcw, hD] at hnames
            simpa using hnames
          have hwfca : wfNode (d + 1) (.mk ['*'] 1 .catchAll [] [] none none handle names) = true := by
            rw [wfNode_mk]
            simp [wfL, wfO, noSent_nil, allStatic, nodupB, alignedB, hh, hnm1]
          have hcca : countHandlers (.mk ['*'] 1 .catchAll [] [] none none handle names) = 1 := by
            rw [countHandlers]
            simp [countHandlersL, countHandlersO, hh]
          have hcount : countHandlers (.mk (path.take i) 1 t [] [] none
              (some (.mk ['*'] 1 .catchAll [] [] none none handle names)) none []) = 1 := by
            rw [countHandlers]
            simp only [countHandlersL, countHandlersO]
            rw [hcca]
            rfl
          refine ⟨?_, hcount, rfl, by simp only [Node.path]; exact hheadtake, rfl⟩
          rw [wfNode_mk]
          rcases ht with ht | ht <;> subst ht <;>
            simp [htake, alignedB, nodupB, hcount, wfL, wfO, noSent_nil, allStatic,
              Node.nType, hwfca]
        · rw [insertChild, hfw] at hres
          simp [hlast] at hres

theorem insertChild_existing (fuel : Nat) (np : List Char) (pr : Nat) (t : NType)
    (ls : List Node) (ix : List Char) (w ca : Option Node) (h : Option Nat)
    (nm : List (List Char)) (d : Nat) (path : List Char) (handle : Option Nat)
    (names : List (List Char)) (n' : Node)
    (hfuel : path.length < fuel)
    (hsent : path.head? = some ':' ∨ path.head? = some '*')
    (hns : normSuffix path = true)
    (hnpne : np ≠ [])
    (ht : t = .static ∨ t = .root)
    (hnames : names.length = d + countWild path)
    (hh : handle.isSome = true)
    (hwfcore : wfCore d (.mk np pr t ls ix w ca h nm) = true)
    (hres : insertChild fuel (.mk np pr t ls ix w ca h nm) path handle names = (n', none)) :
    wfCore d n' = true ∧
      countHandlers n' = countHandlers (.mk np pr t ls ix w ca h nm) + 1 ∧
      n'.nType = t ∧ n'.path = np ∧ n'.priority = pr ∧ n'.handle = h ∧
      n'.wildcardNames = nm := by
  match fuel with
  | 0 => omega
  | fuel + 1 =>
    rw [wfCore_mk] at hwfcore
    simp only [Bool.and_eq_true] at hwfcore
    obtain ⟨⟨⟨⟨⟨⟨⟨⟨hclause, hnoix⟩, hstat⟩, hnmcl⟩, hwty⟩, hcaty⟩, hwfls⟩, hwfw⟩, hwfca⟩ := hwfcore
    rcases hsent with hsent | hsent
    · -- parameter head
      have hfw : findNextWildcard path = some (':', 0) := findNextWildcard_head hsent (Or.inl rfl)
      obtain ⟨rest, rfl⟩ : ∃ rest, path = ':' :: rest := by
        cases path with
        | nil => cases hsent
        | cons c cs => simp only [List.head?_cons, Option.some.injEq] at hsent; subst hsent; exact ⟨cs, rfl⟩
      cases w with
      | some w0 =>
        rw [insertChild, hfw] at hres
        simp at hres
      | none =>
        have hcw1 : countWild (':' :: rest) = 1 + countWild rest := by
          rw [countWild_cons]
          simp
        cases rest with
        | nil =>
          have hcomp : insertChild (fuel + 1) (.mk np pr t ls ix none ca h nm) [':'] handle names =
              (.mk np pr t ls ix (some (.mk [':'] 1 .param [] [] none none handle names)) ca h nm, none) := by
            rw [insertChild, hfw]
            simp
          rw [hcomp] at hres
          simp only [Prod.mk.injEq] at hres
          obtain ⟨hn', -⟩ := hres
          subst hn'
          have hnm1 : names.length = d + 1 := by
            rw [hcw1] at hnames
            simpa using hnames
          have hwfwild : wfNode (d + 1) (.mk [':'] 1 .param [] [] none none handle names) = true := by
            rw [wfNode_mk]
            simp [wfL, wfO, noSent_nil, allStatic, headsSlash_nil, nodupB, alignedB, hh, hnm1]
          refine ⟨?_, ?_, rfl, rfl, rfl, rfl, rfl⟩
          · rw [wfCore_mk]
            simp only [Bool.and_eq_true]
            rcases ht with rfl | rfl <;>
              exact ⟨⟨⟨⟨⟨⟨⟨⟨hclause, hnoix⟩, hstat⟩, hnmcl⟩, by simp [Node.nType]⟩, hcaty⟩,
                hwfls⟩, by rw [wfO]; exact hwfwild⟩, hwfca⟩
          · rw [countHandlers, countHandlers]
            simp only [countHandlersO]
            have hcw0 : countHandlers (.mk [':'] 1 .param [] [] none none handle names) = 1 := by
              rw [countHandlers]
              simp [countHandlersL, countHandlersO, hh]
            rw [hcw0]
            omega
        | cons c0 rest' =>
          have hlen1 : 1 < (':' :: c0 :: rest').length := by simp
          obtain ⟨r1, r2, hr⟩ : ∃ r1 r2,
              insertChild fuel (.mk [] 1 .static [] [] none none none [])
                (c0 :: rest') handle names = (r1, r2) := ⟨_, _, rfl⟩
          have hcomp : insertChild (fuel + 1) (.mk np pr t ls ix none ca h nm)
              (':' :: c0 :: rest') handle names =
              (.mk np pr t ls ix (some (.mk [':'] 1 .param [r1] [] none none none [])) ca h nm, r2) := by
            rw [insertChild, hfw]
            simp [hr]
          rw [hcomp] at hres
          simp only [Prod.mk.injEq] at hres
          obtain ⟨hn', hr2⟩ := hres
          subst hn'
          have hrhead : (c0 :: rest').head? = some '/' := by
            rcases normSuffix_colon hns with hcon | hcon
            · cases hcon
            · exact hcon
          obtain ⟨ihwf, ihcount, ihtype, ihhead, ihprio⟩ :=
            insertChild_fresh fuel (c0 :: rest') (d + 1) .static handle names r1
              (by simp at hfuel ⊢; omega)
              (by simp)
              (by intro c hc; rw [hrhead, Option.some.injEq] at hc; subst hc; decide)
              (normSuffix_tail hns)
              (by rw [hcw1] at hnames; omega)
              hh (Or.inl rfl) (by rw [hr, hr2])
          have hr1head : r1.path.head? = some '/' := by rw [ihhead, hrhead]
          have hwfwild : wfNode (d + 1) (.mk [':'] 1 .param [r1] [] none none none []) = true := by
            rw [wfNode_mk]
            simp [wfL, wfO, noSent_nil, allStatic, headsSlash, nodupB, alignedB,
              hr1head, ihtype, ihwf]
          refine ⟨?_, ?_, rfl, rfl, rfl, rfl, rfl⟩
          · rw [wfCore_mk]
            simp only [Bool.and_eq_true]
            rcases ht with rfl | rfl <;>
              exact ⟨⟨⟨⟨⟨⟨⟨⟨hclause, hnoix⟩, hstat⟩, hnmcl⟩, by simp [Node.nType]⟩, hcaty⟩,
                hwfls⟩, by rw [wfO]; exact hwfwild⟩, hwfca⟩
          · rw [countHandlers, countHandlers]
            simp only [countHandlersO]
            have hcw0 : countHandlers (.mk [':'] 1 .param [r1] [] none none none []) = 1 := by
              rw [countHandlers]
              simp [countHandlersL, countHandlersO, ihcount]
            rw [hcw0]
            omega
    · -- catch-all head
      have hfw : findNextWildcard path = some ('*', 0) := findNextWildcard_head hsent (Or.inr rfl)
      obtain ⟨rest, rfl⟩ : ∃ rest, path = '*' :: rest := by
        cases path with
        | nil => cases hsent
        | cons c cs => simp only [List.head?_cons, Option.some.injEq] at hsent; subst hsent; exact ⟨cs, rfl⟩
      have hrest : rest = [] := normSuffix_star hns
      subst hrest
      cases ca with
      | some ca0 =>
        rw [insertChild, hfw] at hres
        simp at hres
      | none =>
        have hnpe : np.isEmpty = false := by
          cases np with
          | nil => exact absurd rfl hnpne
          | cons c cs => rfl
        have hcomp : insertChild (fuel + 1) (.mk np pr t ls ix w none h nm) ['*'] handle names =
            (.mk np pr t ls ix w (some (.mk ['*'] 1 .catchAll [] [] none none handle names)) h nm, none) := by
          rw [insertChild, hfw]
          simp [hnpe]
        rw [hcomp] at hres
        simp only [Prod.mk.injEq] at hres
        obtain ⟨hn', -⟩ := hres
        subst hn'
        have hnm1 : names.length = d + 1 := by
          rw [show countWild ['*'] = 1 from rfl] at hnames
          omega
        have hwfca' : wfNode (d + 1) (.mk ['*'] 1 .catchAll [] [] none none handle names) = true := by
          rw [wfNode_mk]
          simp [wfL, wfO, noSent_nil, allStatic, nodupB, alignedB, hh, hnm1]
        refine ⟨?_, ?_, rfl, rfl, rfl, rfl, rfl⟩
        · rw [wfCore_mk]
          simp only [Bool.and_eq_true]
          rcases ht with rfl | rfl <;>
            exact ⟨⟨⟨⟨⟨⟨⟨⟨hclause, hnoix⟩, hstat⟩, hnmcl⟩, hwty⟩, by simp [Node.nType]⟩,
              hwfls⟩, hwfw⟩, by rw [wfO]; exact hwfca'⟩
        · rw [countHandlers, countHandlers]
          simp only [countHandlersO]
          have hcw0 : countHandlers (.mk ['*'] 1 .catchAll [] [] none none handle names) = 1 := by
            rw [countHandlers]
            simp [countHandlersL, countHandlersO, hh]
          rw [hcw0]
          try omega


/-! ### More reordering and extraction lemmas for the walk proof -/

theorem rotate_zip {a : List α} {b : List β} {pos q : Nat}
    (hab : a.length = b.length) (hpq : pos ≤ q) (hq : q < a.length) :
    (rotateTo a pos q).zip (rotateTo b pos q) = rotateTo (a.zip b) pos q := by
  rw [rotateTo, rotateTo, rotateTo]
  rw [zip_append_my (by
    simp only [List.length_append, List.length_take, List.length_drop]; omega)]
  rw [zip_append_my (by
    simp only [List.length_append, List.length_take, List.length_drop]; omega)]
  rw [zip_append_my (by
    simp only [List.length_append, List.length_take, List.length_drop]; omega)]
  rw [← zip_take_my, ← zip_drop_my, ← zip_take_my, ← zip_drop_my, ← zip_take_my, ← zip_drop_my]

theorem rotate_set_pos {l : List α} {pos j : Nat} (x : α)
    (hpj : pos ≤ j) (hj : j < l.length) :
    (rotateTo l pos j).set pos x = rotateTo (l.set j x) pos j := by
  obtain ⟨y, hy⟩ : ∃ y, l.get? j = some y := ⟨_, List.get?_eq_get hj⟩
  have hdq : l.drop j = y :: l.drop (j + 1) := get?_drop_decomp hy
  have hset : l.set j x = l.take j ++ x :: l.drop (j + 1) := set_decomp hy x
  have hTlen : (l.take pos).length = pos := by rw [List.length_take]; omega
  rw [rotateTo, rotateTo, hdq]
  have hs1 : (l.set j x).take pos = l.take pos := by
    rw [hset, List.take_append_eq_append_take, List.take_take]
    have h1 : min pos j = pos := by omega
    have h2 : pos - (l.take j).length = 0 := by rw [List.length_take]; omega
    rw [h1, h2, List.take_zero, List.append_nil]
  have hs2 : (l.set j x).drop j = x :: l.drop (j + 1) := by
    rw [hset]
    exact drop_append_of_len (by rw [List.length_take]; omega)
  have hs3 : (l.set j x).drop pos = (l.drop pos).take (j - pos) ++ x :: l.drop (j + 1) := by
    rw [hset, List.drop_append_eq_append_drop]
    have h1 : pos - (l.take j).length = 0 := by rw [List.length_take]; omega
    rw [h1, List.drop_zero, List.drop_take]
  have hs4 : (l.set j x).drop (j + 1) = l.drop (j + 1) := by
    rw [hset]
    have hlen : (l.take j ++ [x]).length = j + 1 := by
      simp only [List.length_append, List.length_take, List.length_cons, List.length_nil]
      omega
    have hre : l.take j ++ x :: l.drop (j + 1) = (l.take j ++ [x]) ++ l.drop (j + 1) := by simp
    rw [hre]
    exact drop_append_of_len hlen
  rw [hs1, hs2, hs3, hs4]
  have hre2 : l.take pos ++ (y :: l.drop (j + 1)).take 1 ++ (l.drop pos).take (j - pos) ++
      l.drop (j + 1) = l.take pos ++ y :: ((l.drop pos).take (j - pos) ++ l.drop (j + 1)) := by
    simp
  rw [hre2, set_append_of_len hTlen y x]
  have hAlen : ((l.drop pos).take (j - pos)).length = j - pos := by
    simp only [List.length_take, List.length_drop]
    omega
  have hmid : (((l.drop pos).take (j - pos)) ++ x :: l.drop (j + 1)).take (j - pos) =
      (l.drop pos).take (j - pos) := by
    rw [List.take_append_eq_append_take, hAlen, Nat.sub_self, List.take_zero,
      List.append_nil, List.take_take, Nat.min_self]
  rw [hmid]
  simp

theorem zip_get? {a : List α} {b : List β} {i : Nat} {x : α} {y : β}
    (hx : a.get? i = some x) (hy : b.get? i = some y) :
    (a.zip b).get? i = some (x, y) := by
  induction a generalizing b i with
  | nil => simp at hx
  | cons c cs ih =>
    cases b with
    | nil => simp at hy
    | cons d ds =>
      cases i with
      | zero =>
        simp only [List.get?_cons_zero, Option.some.injEq] at hx hy
        subst hx; subst hy
        rfl
      | succ i =>
        rw [List.get?_cons_succ] at hx hy
        rw [List.zip_cons_cons, List.get?_cons_succ]
        exact ih hx hy

theorem findIdx?_spec (p : α → Bool) :
    ∀ (l : List α) (s j : Nat), List.findIdx? p l s = some j →
    s ≤ j ∧ j - s < l.length ∧ ∃ c, l.get? (j - s) = some c ∧ p c = true := by
  intro l
  induction l with
  | nil => intro s j h; simp [List.findIdx?] at h
  | cons x xs ih =>
    intro s j h
    rw [List.findIdx?_cons] at h
    by_cases hp : p x = true
    · rw [if_pos hp] at h
      simp only [Option.some.injEq] at h
      subst h
      exact ⟨Nat.le_refl s, by simp, x, by simp, hp⟩
    · rw [if_neg hp] at h
      obtain ⟨h1, h2, c, hc, hpc⟩ := ih (s + 1) j h
      refine ⟨by omega, by simp; omega, c, ?_, hpc⟩
      have : j - s = (j - (s + 1)) + 1 := by omega
      rw [this, List.get?_cons_succ]
      exact hc

theorem alignedB_get {ix : List Char} {ls : List Node} {j : Nat} {cx : Char} {c : Node}
    (ha : alignedB ix ls = true) (hix : ix.get? j = some cx) (hls : ls.get? j = some c) :
    c.path.head? = some cx := by
  rw [alignedB, Bool.and_eq_true] at ha
  have hmem : (cx, c) ∈ ix.zip ls := List.get?_mem (zip_get? hix hls)
  have := (List.all_eq_true.mp ha.2) (cx, c) hmem
  exact of_decide_eq_true this

theorem alignedB_len {ix : List Char} {ls : List Node} (ha : alignedB ix ls = true) :
    ix.length = ls.length := by
  rw [alignedB, Bool.and_eq_true] at ha
  exact of_decide_eq_true ha.1

theorem wfL_get {d : Nat} {ls : List Node} {j : Nat} {c : Node}
    (hl : wfL d ls = true) (hc : ls.get? j = some c) : wfNode d c = true := by
  rw [wfL_eq_all, List.all_eq_true] at hl
  exact hl c (List.get?_mem hc)

theorem wfL_mem {d : Nat} {ls : List Node} {c : Node}
    (hl : wfL d ls = true) (hc : c ∈ ls) : wfNode d c = true := by
  rw [wfL_eq_all, List.all_eq_true] at hl
  exact hl c hc

theorem allStatic_mem {ls : List Node} {c : Node}
    (hl : allStatic ls = true) (hc : c ∈ ls) : c.nType = .static := by
  rw [allStatic, List.all_eq_true] at hl
  exact of_decide_eq_true (hl c hc)

theorem headsSlash_mem {ls : List Node} {c : Node}
    (hl : headsSlash ls = true) (hc : c ∈ ls) : c.path.head? = some '/' := by
  rw [headsSlash, List.all_eq_true] at hl
  exact of_decide_eq_true (hl c hc)

theorem wf_param_fields {D : Nat} {wn : Node} (hwf : wfNode D wn = true)
    (ht : wn.nType = .param) :
    wn.path = [':'] ∧ wn.priority = 1 ∧ wn.wild = none ∧ wn.catchAll = none ∧
      wn.literals.length ≤ 1 := by
  obtain ⟨np, pr, t, ls, ix, w, ca, h, nm⟩ := wn
  simp only [Node.nType] at ht
  subst ht
  rw [wfNode_mk] at hwf
  simp only [Bool.and_eq_true] at hwf
  obtain ⟨⟨⟨⟨⟨⟨⟨⟨hcl0, -⟩, -⟩, -⟩, -⟩, -⟩, -⟩, -⟩, -⟩ := hwf
  obtain ⟨⟨⟨⟨⟨⟨⟨hp1, hp2⟩, hp3⟩, -⟩, -⟩, -⟩, hw⟩, hca⟩ := hcl0
  exact ⟨of_decide_eq_true hp1, of_decide_eq_true hp3,
    Option.isNone_iff_eq_none.mp hw, Option.isNone_iff_eq_none.mp hca,
    of_decide_eq_true hp2⟩

theorem prOk_static {c : Node} (hp : prOk c = true)
    (ht : c.nType = .static ∨ c.nType = .root) : c.priority = countHandlers c := by
  obtain ⟨np, pr, t, ls, ix, w, ca, h, nm⟩ := c
  simp only [Node.nType] at ht
  rw [prOk_mk] at hp
  rcases ht with ht | ht <;> subst ht <;> exact of_decide_eq_true hp

theorem noSent_static {d : Nat} {c : Node} (hwf : wfNode d c = true)
    (ht : c.nType = .static ∨ c.nType = .root) : noSent c.path = true := by
  obtain ⟨np, pr, t, ls, ix, w, ca, h, nm⟩ := c
  simp only [Node.nType] at ht
  rw [wfNode_mk] at hwf
  simp only [Bool.and_eq_true] at hwf
  obtain ⟨⟨⟨⟨⟨⟨⟨⟨hcl, -⟩, -⟩, -⟩, -⟩, -⟩, -⟩, -⟩, -⟩ := hwf
  rcases ht with ht | ht <;> subst ht <;>
    · simp only [Bool.and_eq_true] at hcl
      exact hcl.1.1.1

theorem findIdx?_none (p : α → Bool) :
    ∀ (l : List α) (s : Nat), List.findIdx? p l s = none → ∀ c ∈ l, p c = false := by
  intro l
  induction l with
  | nil => intro s h c hc; cases hc
  | cons x xs ih =>
    intro s h c hc
    rw [List.findIdx?_cons] at h
    by_cases hp : p x = true
    · rw [if_pos hp] at h; cases h
    · rw [if_neg hp] at h
      rw [List.mem_cons] at hc
      rcases hc with rfl | hc
      · cases hpc : p c
        · rfl
        · exact absurd hpc hp
      · exact ih (s + 1) h c hc

theorem countL_set {ls : List Node} {j : Nat} {c2 : Node}
    (hc : ls.get? j = some c2) (x : Node) :
    countHandlersL (ls.set j x) + countHandlers c2 = countHandlersL ls + countHandlers x := by
  rw [set_decomp hc]
  conv_rhs => rw [list_decomp hc]
  rw [countHandlersL_append, countHandlersL_append]
  simp only [countHandlersL]
  omega

theorem wfL_of_mem (d : Nat) (l : List Node) (h : ∀ c ∈ l, wfNode d c = true) :
    wfL d l = true := by
  rw [wfL_eq_all, List.all_eq_true]
  exact h

theorem allStatic_of_mem (l : List Node) (h : ∀ c ∈ l, c.nType = .static) :
    allStatic l = true := by
  rw [allStatic, List.all_eq_true]
  intro c hc
  exact decide_eq_true (h c hc)

theorem headsSlash_of_mem (l : List Node) (h : ∀ c ∈ l, c.path.head? = some '/') :
    headsSlash l = true := by
  rw [headsSlash, List.all_eq_true]
  intro c hc
  exact decide_eq_true (h c hc)

theorem alignedB_of_pairs {ix : List Char} {ls : List Node}
    (hlen : ix.length = ls.length)
    (h : ∀ pz ∈ ix.zip ls, pz.2.path.head? = some pz.1) : alignedB ix ls = true := by
  rw [alignedB, Bool.and_eq_true]
  refine ⟨decide_eq_true hlen, List.all_eq_true.mpr ?_⟩
  intro pz hpz
  exact decide_eq_true (h pz hpz)

theorem alignedB_pairs {ix : List Char} {ls : List Node} (ha : alignedB ix ls = true) :
    ∀ pz ∈ ix.zip ls, pz.2.path.head? = some pz.1 := by
  rw [alignedB, Bool.and_eq_true] at ha
  intro pz hpz
  exact of_decide_eq_true ((List.all_eq_true.mp ha.2) pz hpz)

theorem prOk_build {c : Node} (ht : c.nType = .static ∨ c.nType = .root)
    (hpr : c.priority = countHandlers c) : prOk c = true := by
  obtain ⟨np, pr, t, ls, ix, w, ca, h, nm⟩ := c
  simp only [Node.nType] at ht
  simp only [Node.priority] at hpr
  rw [prOk_mk]
  rcases ht with rfl | rfl <;> exact decide_eq_true hpr

theorem prOk_other {c : Node} (ht : c.nType = .param ∨ c.nType = .catchAll) :
    prOk c = true := by
  obtain ⟨np, pr, t, ls, ix, w, ca, h, nm⟩ := c
  simp only [Node.nType] at ht
  rw [prOk_mk]
  rcases ht with rfl | rfl <;> rfl

theorem alignedB_singleton (cx : Char) (c : Node) (h : c.path.head? = some cx) :
    alignedB [cx] [c] = true := by
  refine alignedB_of_pairs rfl ?_
  intro pz hpz
  have hp2 : pz = (cx, c) := by simpa using hpz
  rw [hp2]
  exact h

/-! ### The insertion walk preserves the invariant -/

theorem walk_wf (fuel : Nat) :
    ∀ (n : Node) (path : List Char) (d : Nat) (handle : Option Nat)
      (names : List (List Char)) (n' : Node),
    path.length < fuel → path ≠ [] →
    path.head? = n.path.head? →
    normSuffix path = true →
    names.length + countWild n.path = d + countWild path →
    handle.isSome = true →
    wfCore d n = true →
    (n.nType = .param ∨ ((n.nType = .static ∨ n.nType = .root) ∧
      n.priority = countHandlers n + 1)) →
    addRouteWalk fuel n path handle names = (n', none) →
    wfNode d n' = true ∧ countHandlers n' = countHandlers n + 1 ∧ n'.nType = n.nType ∧
      n'.path.head? = path.head? ∧ n'.priority = n.priority := by
  induction fuel with
  | zero => intro n path d handle names n' hfuel; omega
  | succ fuel IH =>
    intro n path d handle names n' hfuel hne hlink hns hnames hh hwfc hpre hres
    obtain ⟨np, pr, t, ls, ix, w, ca, h, nm⟩ := n
    simp only [Node.path, Node.nType, Node.priority] at hlink hnames hpre ⊢
    have hnpne : np ≠ [] := by
      cases path with
      | nil => exact absurd rfl hne
      | cons c cs =>
        cases np with
        | nil => simp at hlink
        | cons d2 ds => simp
    have h0i : 0 < longestCommonPrefix np path := lcp_pos hnpne hlink.symm
    have hile : longestCommonPrefix np path ≤ np.length := lcp_le_left np path
    have hilep : longestCommonPrefix np path ≤ path.length := lcp_le_right np path
    have htakeeq : np.take (longestCommonPrefix np path) =
        path.take (longestCommonPrefix np path) := lcp_take_eq np path
    have hheadT : (path.take (longestCommonPrefix np path)).head? = path.head? :=
      head?_take h0i
    have hmain : ∀ (ls1 : List Node) (ix1 : List Char) (w1 ca1 : Option Node) (h1 : Option Nat),
        (if longestCommonPrefix np path < np.length then
          splitNode (.mk np pr t ls ix w ca h nm) (longestCommonPrefix np path) path
        else .mk np pr t ls ix w ca h nm) =
          .mk (path.take (longestCommonPrefix np path)) pr t ls1 ix1 w1 ca1 h1 nm →
        wfCore d (.mk (path.take (longestCommonPrefix np path)) pr t ls1 ix1 w1 ca1 h1 nm) = true →
        countHandlers (.mk (path.take (longestCommonPrefix np path)) pr t ls1 ix1 w1 ca1 h1 nm) =
          countHandlers (.mk np pr t ls ix w ca h nm) →
        countWild (path.take (longestCommonPrefix np path)) = countWild np →
        wfNode d n' = true ∧
          countHandlers n' = countHandlers (.mk np pr t ls ix w ca h nm) + 1 ∧
          n'.nType = t ∧ n'.path.head? = path.head? ∧ n'.priority = pr := by
      intro ls1 ix1 w1 ca1 h1 hif hwf1 hcnt1 hcwT
      have hwf1' := hwf1
      rw [wfCore_mk] at hwf1
      simp only [Bool.and_eq_true] at hwf1
      obtain ⟨⟨⟨⟨⟨⟨⟨⟨hclause1, hnoix1⟩, hstat1⟩, hnm1⟩, hwty1⟩, hcaty1⟩, hwfls1⟩, hwfw1⟩, hwfca1⟩ := hwf1
      have hstaticparts : t = .static ∨ t = .root →
          noSent (path.take (longestCommonPrefix np path)) = true ∧
            alignedB ix1 ls1 = true ∧ nodupB ix1 = true := by
        intro hts
        have hstatics : (noSent (path.take (longestCommonPrefix np path)) &&
            alignedB ix1 ls1 && nodupB ix1) = true := by
          rcases hts with rfl | rfl <;> exact hclause1
        simp only [Bool.and_eq_true] at hstatics
        exact ⟨hstatics.1.1, hstatics.1.2, hstatics.2⟩
      have hparamparts : t = .param →
          path.take (longestCommonPrefix np path) = [':'] ∧ ls1.length ≤ 1 ∧ pr = 1 ∧
            (ix1.isEmpty || alignedB ix1 ls1) = true ∧ nodupB ix1 = true ∧
            headsSlash ls1 = true ∧ w1 = none ∧ ca1 = none := by
        intro htp
        subst htp
        have hclp := hclause1
        simp only [Bool.and_eq_true] at hclp
        obtain ⟨⟨⟨⟨⟨⟨⟨hTp, hlsle⟩, hpr1⟩, hixor⟩, hnodup1⟩, hheads1⟩, hw1n⟩, hca1n⟩ := hclp
        exact ⟨of_decide_eq_true hTp, of_decide_eq_true hlsle, of_decide_eq_true hpr1,
          hixor, hnodup1, hheads1, Option.isNone_iff_eq_none.mp hw1n,
          Option.isNone_iff_eq_none.mp hca1n⟩
      rw [addRouteWalk] at hres
      simp only [Node.path, hif, Node.wild, Node.nType, Node.literals, Node.indices,
        Node.handle] at hres
      have hcwpath : countWild path =
          countWild np + countWild (path.drop (longestCommonPrefix np path)) := by
        conv_lhs => rw [← List.take_append_drop (longestCommonPrefix np path) path]
        rw [countWild_append, hcwT]
      cases hpath1 : path.drop (longestCommonPrefix np path) with
      | nil =>
        simp only [hpath1] at hres
        rw [hpath1] at hcwpath
        by_cases hh1 : h1.isSome = true
        · rw [if_pos hh1] at hres
          simp at hres
        · rw [if_neg hh1] at hres
          simp only [setHandleNames, Prod.mk.injEq] at hres
          obtain ⟨hn', -⟩ := hres
          subst hn'
          have h1none : h1 = none := by
            cases h1 with
            | none => rfl
            | some hv => simp at hh1
          subst h1none
          have hnmd : names.length = d := by
            rw [show countWild ([] : List Char) = 0 from rfl] at hcwpath
            omega
          have hcount : countHandlers (.mk (path.take (longestCommonPrefix np path)) pr t
                ls1 ix1 w1 ca1 handle names) =
              countHandlers (.mk (path.take (longestCommonPrefix np path)) pr t
                ls1 ix1 w1 ca1 none nm) + 1 := by
            rw [countHandlers, countHandlers, hh]
            simp
            omega
          refine ⟨?_, by rw [hcount, hcnt1], rfl, by simp only [Node.path]; exact hheadT, rfl⟩
          rw [wf_split, Bool.and_eq_true]
          constructor
          · rw [wfCore_mk]
            simp only [Bool.and_eq_true]
            refine ⟨⟨⟨⟨⟨⟨⟨⟨?_, hnoix1⟩, hstat1⟩, ?_⟩, hwty1⟩, hcaty1⟩, hwfls1⟩, hwfw1⟩, hwfca1⟩
            · cases t with
              | static => exact hclause1
              | root => exact hclause1
              | param => exact hclause1
              | catchAll => simp at hclause1
            · rw [hh]
              simp [hnmd]
          · rcases hpre with hparam | ⟨hts, hpr⟩
            · exact prOk_other (Or.inl (by simp only [Node.nType]; exact hparam))
            · refine prOk_build (by simp only [Node.nType]; exact hts) ?_
              simp only [Node.priority]
              rw [hcount, hcnt1]
              exact hpr
      | cons nextChar rest1 =>
        simp only [hpath1] at hres
        rw [hpath1] at hcwpath
        have hi_lt : longestCommonPrefix np path < path.length := by
          rcases Nat.lt_or_ge (longestCommonPrefix np path) path.length with hlt | hge
          · exact hlt
          · rw [List.drop_eq_nil_of_le hge] at hpath1
            cases hpath1
        have hlenp1 : (nextChar :: rest1).length = path.length - longestCommonPrefix np path := by
          rw [← hpath1, List.length_drop]
        have hfuel1 : (nextChar :: rest1).length < fuel := by
          rw [hlenp1]
          omega
        have hns1 : normSuffix (nextChar :: rest1) = true := by
          rw [← hpath1]
          exact normSuffix_drop _ hns
        have hnames1 : names.length = d + countWild (nextChar :: rest1) := by omega
        have hparamslash : t = .param → nextChar = '/' := by
          intro htp
          obtain ⟨hTp, -, -, -, -, -, -, -⟩ := hparamparts htp
          have hpdecomp : path = ':' :: nextChar :: rest1 := by
            conv_lhs => rw [← List.take_append_drop (longestCommonPrefix np path) path]
            rw [hTp, hpath1]
            rfl
          rw [hpdecomp] at hns
          rcases normSuffix_colon hns with hcon | hcon
          · cases hcon
          · simpa using hcon
        by_cases hG1 : nextChar = ':' ∧ w1.isSome = true ∧ 1 < (nextChar :: rest1).length
        · -- descend into the existing wild child
          obtain ⟨hnc, hw1some, hlendeep⟩ := hG1
          obtain ⟨wn, rfl⟩ := Option.isSome_iff_exists.mp hw1some
          obtain ⟨r1, r2, hr⟩ : ∃ r1 r2,
              addRouteWalk fuel wn (nextChar :: rest1) handle names = (r1, r2) := ⟨_, _, rfl⟩
          rw [dif_pos ⟨hnc, by simp, hlendeep⟩] at hres
          simp only [Option.get_some, hr, setWild, Prod.mk.injEq] at hres
          obtain ⟨hn', hr2⟩ := hres
          subst hn'
          have hwfwn : wfNode (d + 1) wn = true := by
            rw [wfO] at hwfw1
            exact hwfw1
          have hwnty : wn.nType = .param :=
            of_decide_eq_true (show decide (wn.nType = .param) = true from hwty1)
          obtain ⟨hwnpath, hwnprio, -, -, -⟩ := wf_param_fields hwfwn hwnty
          have hwncore : wfCore (d + 1) wn = true := by
            have hx := hwfwn
            rw [wf_split, Bool.and_eq_true] at hx
            exact hx.1
          obtain ⟨ihwf, ihcnt, ihty, ihhead, ihprio⟩ :=
            IH wn (nextChar :: rest1) (d + 1) handle names r1 hfuel1 (by simp)
              (by rw [hwnpath, hnc]; rfl) hns1
              (by rw [hwnpath, show countWild [':'] = 1 from rfl]; omega)
              hh hwncore (Or.inl hwnty) (by rw [hr, hr2])
          rcases hpre with hparam | ⟨hts, hpr⟩
          · obtain ⟨-, -, -, -, -, -, hw1n, -⟩ := hparamparts hparam
            cases hw1n
          · have hcount : countHandlers (.mk (path.take (longestCommonPrefix np path)) pr t
                  ls1 ix1 (some r1) ca1 h1 nm) =
                countHandlers (.mk (path.take (longestCommonPrefix np path)) pr t
                  ls1 ix1 (some wn) ca1 h1 nm) + 1 := by
              rw [countHandlers, countHandlers]
              simp only [countHandlersO]
              omega
            refine ⟨?_, by rw [hcount, hcnt1], rfl, by simp only [Node.path]; exact hheadT, rfl⟩
            rw [wf_split, Bool.and_eq_true]
            constructor
            · rw [wfCore_mk]
              simp only [Bool.and_eq_true]
              refine ⟨⟨⟨⟨⟨⟨⟨⟨?_, hnoix1⟩, hstat1⟩, hnm1⟩, ?_⟩, hcaty1⟩, hwfls1⟩, ?_⟩, hwfca1⟩
              · rcases hts with rfl | rfl <;> exact hclause1
              · rw [ihty, hwnty]
                simp
              · rw [wfO]
                exact ihwf
            · refine prOk_build (by simp only [Node.nType]; exact hts) ?_
              simp only [Node.priority]
              rw [hcount, hcnt1]
              exact hpr
        · rw [dif_neg hG1] at hres
          by_cases hG2 : t = .param ∧ 0 < ls1.length
          · -- continuation child of a param node
            obtain ⟨htp, hls1pos⟩ := hG2
            have hslash : nextChar = '/' := hparamslash htp
            obtain ⟨hTp, hlsle, hpr1, hixor, hnodup1, hheads1, hw1n, hca1n⟩ := hparamparts htp
            subst htp
            cases ls1 with
            | nil => simp at hls1pos
            | cons c0 tail0 =>
              cases tail0 with
              | cons x xs => simp at hlsle
              | nil =>
                obtain ⟨r1, r2, hr⟩ : ∃ r1 r2,
                    addRouteWalk fuel (bumpPrio c0) (nextChar :: rest1) handle names =
                      (r1, r2) := ⟨_, _, rfl⟩
                rw [if_pos ⟨rfl, hls1pos⟩] at hres
                simp only [hr, setLits, Prod.mk.injEq] at hres
                obtain ⟨hn', hr2⟩ := hres
                subst hn'
                have hwfc0 : wfNode d c0 = true :=
                  wfL_get hwfls1 (show ([c0] : List Node).get? 0 = some c0 from rfl)
                have hc0ty : c0.nType = .static := allStatic_mem hstat1 (by simp)
                have hc0head : c0.path.head? = some '/' := headsSlash_mem hheads1 (by simp)
                have hc0core : wfCore d c0 = true := by
                  have hx := hwfc0
                  rw [wf_split, Bool.and_eq_true] at hx
                  exact hx.1
                have hc0pr : c0.priority = countHandlers c0 := by
                  have hx := hwfc0
                  rw [wf_split, Bool.and_eq_true] at hx
                  exact prOk_static hx.2 (Or.inl hc0ty)
                have hc0nos : noSent c0.path = true := noSent_static hwfc0 (Or.inl hc0ty)
                obtain ⟨ihwf, ihcnt, ihty, ihhead, ihprio⟩ :=
                  IH (bumpPrio c0) (nextChar :: rest1) d handle names r1 hfuel1 (by simp)
                    (by rw [path_bump, hc0head, hslash]; rfl) hns1
                    (by rw [path_bump, noSent_countWild hc0nos]; omega)
                    hh (by rw [wfCore_bump (Or.inl hc0ty)]; exact hc0core)
                    (Or.inr ⟨Or.inl (by rw [nType_bump]; exact hc0ty),
                      by rw [priority_bump, countHandlers_bump, hc0pr]⟩)
                    (by rw [hr, hr2])
                have hr1ty : r1.nType = .static := by
                  rw [ihty, nType_bump]
                  exact hc0ty
                have hr1head : r1.path.head? = some '/' := by
                  rw [ihhead, hslash]
                  rfl
                have hcount : countHandlers (.mk (path.take (longestCommonPrefix np path)) pr
                      .param [r1] ix1 w1 ca1 h1 nm) =
                    countHandlers (.mk (path.take (longestCommonPrefix np path)) pr
                      .param [c0] ix1 w1 ca1 h1 nm) + 1 := by
                  rw [countHandlers, countHandlers]
                  simp only [countHandlersL]
                  have hrc : countHandlers r1 = countHandlers c0 + 1 := by
                    rw [ihcnt, countHandlers_bump]
                  omega
                refine ⟨?_, by rw [hcount, hcnt1], rfl,
                  by simp only [Node.path]; exact hheadT, rfl⟩
                rw [wf_split, Bool.and_eq_true]
                constructor
                · rw [wfCore_mk]
                  simp only [Bool.and_eq_true]
                  refine ⟨⟨⟨⟨⟨⟨⟨⟨?_, hnoix1⟩, ?_⟩, hnm1⟩, hwty1⟩, hcaty1⟩, ?_⟩, hwfw1⟩, hwfca1⟩
                  · refine ⟨⟨⟨⟨⟨⟨⟨decide_eq_true hTp, by simp⟩, decide_eq_true hpr1⟩, ?_⟩,
                      hnodup1⟩, ?_⟩, by rw [hw1n]; rfl⟩, by rw [hca1n]; rfl⟩
                    · rcases (Bool.or_eq_true _ _).mp hixor with hemp | halig
                      · rw [hemp]
                        rfl
                      · have hlen11 : ix1.length = 1 := by
                          have hx := alignedB_len halig
                          simpa using hx
                        cases ix1 with
                        | nil => simp at hlen11
                        | cons cx tl =>
                          cases tl with
                          | cons y ys => simp at hlen11
                          | nil =>
                            have hcx : c0.path.head? = some cx :=
                              alignedB_get halig
                                (show ([cx] : List Char).get? 0 = some cx from rfl)
                                (show ([c0] : List Node).get? 0 = some c0 from rfl)
                            have hcxs : cx = '/' := by
                              rw [hc0head] at hcx
                              injection hcx with hcx2
                              exact hcx2.symm
                            refine (Bool.or_eq_true _ _).mpr (Or.inr ?_)
                            refine alignedB_of_pairs (by simp) ?_
                            intro pz hpz
                            simp at hpz
                            subst hpz
                            rw [hr1head, hcxs]
                    · exact headsSlash_of_mem _ (by
                        intro c hc
                        simp only [List.mem_singleton] at hc
                        subst hc
                        exact hr1head)
                  · exact allStatic_of_mem _ (by
                      intro c hc
                      simp only [List.mem_singleton] at hc
                      subst hc
                      exact hr1ty)
                  · rw [wfL, Bool.and_eq_true]
                    exact ⟨ihwf, by rw [wfL]⟩
                · exact prOk_other (Or.inl (by simp only [Node.nType]))
          · rw [if_neg hG2] at hres
            cases hfind : List.findIdx? (fun c => c = nextChar) ix1 with
            | some j =>
              rw [hfind] at hres
              obtain ⟨-, hjx0, cx, hcx0, hpcx⟩ := findIdx?_spec _ ix1 0 j hfind
              simp only [Nat.sub_zero] at hjx0 hcx0
              have hcxval : cx = nextChar := of_decide_eq_true hpcx
              have htnp : ¬ t = .param := by
                intro htp
                obtain ⟨-, -, -, hixor, -, -, -, -⟩ := hparamparts htp
                have hls10 : ls1.length = 0 := by
                  by_contra hcon
                  exact hG2 ⟨htp, by omega⟩
                have hix10 : ix1 = [] := by
                  rcases (Bool.or_eq_true _ _).mp hixor with hemp | halig
                  · exact List.isEmpty_iff.mp hemp
                  · have hx := alignedB_len halig
                    rw [hls10] at hx
                    exact List.eq_nil_of_length_eq_zero hx
                rw [hix10] at hjx0
                simp at hjx0
              obtain ⟨hts, hpr⟩ : (t = .static ∨ t = .root) ∧
                  pr = countHandlers (.mk np pr t ls ix w ca h nm) + 1 := by
                rcases hpre with hp | hsp
                · exact absurd hp htnp
                · exact hsp
              obtain ⟨hTnos, halign, hnodup1⟩ := hstaticparts hts
              have hjls : j < ls1.length := by
                rw [← alignedB_len halign]
                exact hjx0
              obtain ⟨c2, pos, hc2get, hposle, hinceq⟩ :=
                incPrio_spec (path.take (longestCommonPrefix np path)) pr t ls1 ix1 w1 ca1 h1 nm
                  j hjls hjx0
              simp only [hinceq] at hres
              have hsetlen : j < (ls1.set j (bumpPrio c2)).length := by
                rw [List.length_set]
                exact hjls
              have hget2 : (rotateTo (ls1.set j (bumpPrio c2)) pos j).get? pos =
                  some (bumpPrio c2) := by
                rw [rotate_get_pos hposle hsetlen, List.get?_set_eq, hc2get]
                rfl
              obtain ⟨r1, r2, hr⟩ : ∃ r1 r2,
                  addRouteWalk fuel (bumpPrio c2) (nextChar :: rest1) handle names = (r1, r2) :=
                ⟨_, _, rfl⟩
              simp only [Node.literals, hget2, hr, setLits, Prod.mk.injEq] at hres
              obtain ⟨hn', hr2⟩ := hres
              subst hn'
              have hwfc2 : wfNode d c2 = true := wfL_get hwfls1 hc2get
              have hc2ty : c2.nType = .static := allStatic_mem hstat1 (List.get?_mem hc2get)
              have hc2head : c2.path.head? = some cx := alignedB_get halign hcx0 hc2get
              have hc2core : wfCore d c2 = true := by
                have hx := hwfc2
                rw [wf_split, Bool.and_eq_true] at hx
                exact hx.1
              have hc2pr : c2.priority = countHandlers c2 := by
                have hx := hwfc2
                rw [wf_split, Bool.and_eq_true] at hx
                exact prOk_static hx.2 (Or.inl hc2ty)
              have hc2nos : noSent c2.path = true := noSent_static hwfc2 (Or.inl hc2ty)
              obtain ⟨ihwf, ihcnt, ihty, ihhead, ihprio⟩ :=
                IH (bumpPrio c2) (nextChar :: rest1) d handle names r1 hfuel1 (by simp)
                  (by rw [path_bump, hc2head, hcxval]; rfl) hns1
                  (by rw [path_bump, noSent_countWild hc2nos]; omega)
                  hh (by rw [wfCore_bump (Or.inl hc2ty)]; exact hc2core)
                  (Or.inr ⟨Or.inl (by rw [nType_bump]; exact hc2ty),
                    by rw [priority_bump, countHandlers_bump, hc2pr]⟩)
                  (by rw [hr, hr2])
              have hr1ty : r1.nType = .static := by
                rw [ihty, nType_bump]
                exact hc2ty
              have hr1head : r1.path.head? = some nextChar := by
                rw [ihhead]
                rfl
              have hls3 : (rotateTo (ls1.set j (bumpPrio c2)) pos j).set pos r1 =
                  rotateTo (ls1.set j r1) pos j := by
                rw [rotate_set_pos r1 hposle hsetlen, List.set_set]
              rw [hls3]
              have hsetlen2 : j < (ls1.set j r1).length := by
                rw [List.length_set]
                exact hjls
              have hmem3 : ∀ c ∈ rotateTo (ls1.set j r1) pos j, c = r1 ∨ c ∈ ls1 := by
                intro c hc
                have h1 := (rotate_perm hposle hsetlen2).mem_iff.mp hc
                rcases List.mem_or_eq_of_mem_set h1 with hmem | rfl
                · exact Or.inr hmem
                · exact Or.inl rfl
              have hlen3 : (rotateTo (ls1.set j r1) pos j).length = ls1.length := by
                rw [rotate_length hposle hsetlen2, List.length_set]
              have hlenix2 : (rotateTo ix1 pos j).length = ix1.length :=
                rotate_length hposle hjx0
              have hzip : (rotateTo ix1 pos j).zip (rotateTo (ls1.set j r1) pos j) =
                  rotateTo ((ix1.zip ls1).set j (cx, r1)) pos j := by
                rw [rotate_zip (by rw [List.length_set, alignedB_len halign]) hposle hjx0,
                  zip_set_right ix1 ls1 j cx r1 hcx0]
              have hzipsetlen : j < ((ix1.zip ls1).set j (cx, r1)).length := by
                rw [List.length_set, List.length_zip]
                have hx := alignedB_len halign
                omega
              have haligned2 : alignedB (rotateTo ix1 pos j)
                  (rotateTo (ls1.set j r1) pos j) = true := by
                refine alignedB_of_pairs (by rw [hlenix2, hlen3, alignedB_len halign]) ?_
                intro pz hpz
                rw [hzip] at hpz
                have h1 := (rotate_perm hposle hzipsetlen).mem_iff.mp hpz
                rcases List.mem_or_eq_of_mem_set h1 with hmem | rfl
                · exact alignedB_pairs halign pz hmem
                · show r1.path.head? = some cx
                  rw [hr1head, hcxval]
              have hnodup2 : nodupB (rotateTo ix1 pos j) = true := by
                rw [nodupB_iff]
                exact ((rotate_perm hposle hjx0).nodup_iff).mpr ((nodupB_iff _).mp hnodup1)
              have hnoix2 : noSent (rotateTo ix1 pos j) = true :=
                noSent_of_forall fun c hc =>
                  noSent_mem hnoix1 ((rotate_perm hposle hjx0).mem_iff.mp hc)
              have hallst3 : allStatic (rotateTo (ls1.set j r1) pos j) = true :=
                allStatic_of_mem _ (by
                  intro c hc
                  rcases hmem3 c hc with rfl | hmem
                  · exact hr1ty
                  · exact allStatic_mem hstat1 hmem)
              have hwfL3 : wfL d (rotateTo (ls1.set j r1) pos j) = true :=
                wfL_of_mem d _ (by
                  intro c hc
                  rcases hmem3 c hc with rfl | hmem
                  · exact ihwf
                  · exact wfL_mem hwfls1 hmem)
              have hcntL3 : countHandlersL (rotateTo (ls1.set j r1) pos j) =
                  countHandlersL ls1 + 1 := by
                rw [countHandlersL_perm (rotate_perm hposle hsetlen2)]
                have h1 := countL_set hc2get r1
                have h2 : countHandlers r1 = countHandlers c2 + 1 := by
                  rw [ihcnt, countHandlers_bump]
                omega
              have hcount : countHandlers (.mk (path.take (longestCommonPrefix np path)) pr t
                    (rotateTo (ls1.set j r1) pos j) (rotateTo ix1 pos j) w1 ca1 h1 nm) =
                  countHandlers (.mk (path.take (longestCommonPrefix np path)) pr t
                    ls1 ix1 w1 ca1 h1 nm) + 1 := by
                rw [countHandlers, countHandlers, hcntL3]
                omega
              refine ⟨?_, by rw [hcount, hcnt1], rfl, by simp only [Node.path]; exact hheadT, rfl⟩
              rw [wf_split, Bool.and_eq_true]
              constructor
              · rw [wfCore_mk]
                simp only [Bool.and_eq_true]
                refine ⟨⟨⟨⟨⟨⟨⟨⟨?_, hnoix2⟩, hallst3⟩, hnm1⟩, hwty1⟩, hcaty1⟩, hwfL3⟩, hwfw1⟩, hwfca1⟩
                rcases hts with rfl | rfl <;>
                  · simp only [Bool.and_eq_true]
                    exact ⟨⟨hTnos, haligned2⟩, hnodup2⟩
              · refine prOk_build (by simp only [Node.nType]; exact hts) ?_
                simp only [Node.priority]
                rw [hcount, hcnt1]
                exact hpr
            | none =>
              rw [hfind] at hres
              have hnotin : nextChar ∉ ix1 := by
                intro hmem
                have hx := findIdx?_none _ ix1 0 hfind nextChar hmem
                simp at hx
              by_cases hsent2 : nextChar ≠ ':' ∧ nextChar ≠ '*'
              · -- new literal child appended then filled by insertChild
                rw [if_pos hsent2] at hres
                simp only [appendChild, Node.indices, Node.literals] at hres
                have hixlen : (ix1 ++ [nextChar]).length - 1 = ix1.length := by simp
                rw [hixlen] at hres
                have hparamnil : t = .param → ls1 = [] ∧ ix1 = [] := by
                  intro htp
                  obtain ⟨-, -, -, hixor, -, -, -, -⟩ := hparamparts htp
                  have hls10 : ls1.length = 0 := by
                    by_contra hcon
                    exact hG2 ⟨htp, by omega⟩
                  have hls1e : ls1 = [] := List.eq_nil_of_length_eq_zero hls10
                  refine ⟨hls1e, ?_⟩
                  rcases (Bool.or_eq_true _ _).mp hixor with hemp | halig
                  · exact List.isEmpty_iff.mp hemp
                  · have hx := alignedB_len halig
                    rw [hls10] at hx
                    exact List.eq_nil_of_length_eq_zero hx
                have hixls : ix1.length = ls1.length := by
                  rcases hpre with hparam | ⟨hts, -⟩
                  · obtain ⟨hls1e, hix1e⟩ := hparamnil hparam
                    rw [hls1e, hix1e]
                    rfl
                  · exact alignedB_len (hstaticparts hts).2.1
                have halignz : ∀ pz ∈ ix1.zip ls1, pz.2.path.head? = some pz.1 := by
                  rcases hpre with hparam | ⟨hts, -⟩
                  · obtain ⟨-, hix1e⟩ := hparamnil hparam
                    rw [hix1e]
                    intro pz hpz
                    cases hpz
                  · exact alignedB_pairs (hstaticparts hts).2.1
                have hnodup1 : nodupB ix1 = true := by
                  rcases hpre with hparam | ⟨hts, -⟩
                  · obtain ⟨-, hix1e⟩ := hparamnil hparam
                    rw [hix1e]
                    rfl
                  · exact (hstaticparts hts).2.2
                obtain ⟨c2, pos, hc2get, hposle, hinceq⟩ :=
                  incPrio_spec (path.take (longestCommonPrefix np path)) pr t
                    (ls1 ++ [emptyNode]) (ix1 ++ [nextChar]) w1 ca1 h1 nm ix1.length
                    (by simp; omega) (by simp)
                have hc2e : c2 = emptyNode := by
                  rw [hixls, List.get?_concat_length] at hc2get
                  injection hc2get with hx
                  exact hx.symm
                subst hc2e
                simp only [hinceq] at hres
                have hsetlen : ix1.length <
                    ((ls1 ++ [emptyNode]).set ix1.length (bumpPrio emptyNode)).length := by
                  simp
                  omega
                have hget2 : (rotateTo ((ls1 ++ [emptyNode]).set ix1.length (bumpPrio emptyNode))
                    pos ix1.length).get? pos = some (bumpPrio emptyNode) := by
                  rw [rotate_get_pos hposle hsetlen, List.get?_set_eq]
                  rw [hixls, List.get?_concat_length]
                  rfl
                have hbe : bumpPrio emptyNode = Node.mk [] 1 .static [] [] none none none [] := rfl
                obtain ⟨r1, r2, hr⟩ : ∃ r1 r2,
                    insertChild ((nextChar :: rest1).length + 1)
                      (Node.mk [] 1 .static [] [] none none none [])
                      (nextChar :: rest1) handle names = (r1, r2) := ⟨_, _, rfl⟩
                rw [hbe] at hget2 hres
                simp only [Node.literals, hget2, hr, setLits, Prod.mk.injEq] at hres
                obtain ⟨hn', hr2⟩ := hres
                subst hn'
                obtain ⟨ihwf, ihcnt, ihty, ihhead, ihprio⟩ :=
                  insertChild_fresh ((nextChar :: rest1).length + 1) (nextChar :: rest1) d
                    .static handle names r1 (by omega) (by simp)
                    (by
                      intro c hc
                      simp only [List.head?_cons, Option.some.injEq] at hc
                      subst hc
                      rintro (h1 | h1)
                      · exact hsent2.1 h1
                      · exact hsent2.2 h1)
                    hns1 hnames1 hh (Or.inl rfl) (by rw [hr, hr2])
                have hr1head : r1.path.head? = some nextChar := by
                  rw [ihhead]
                  rfl
                have hls3 : (rotateTo ((ls1 ++ [emptyNode]).set ix1.length
                      (Node.mk [] 1 .static [] [] none none none [])) pos ix1.length).set pos r1 =
                    rotateTo (ls1 ++ [r1]) pos ix1.length := by
                  rw [hbe] at hsetlen
                  rw [rotate_set_pos r1 hposle hsetlen, List.set_set]
                  congr 1
                  rw [hixls]
                  exact set_append_len ls1 [] emptyNode r1
                rw [hls3]
                have hlsr1len : ix1.length < (ls1 ++ [r1]).length := by
                  simp
                  omega
                have hixClen : ix1.length < (ix1 ++ [nextChar]).length := by simp
                have hmem3 : ∀ c ∈ rotateTo (ls1 ++ [r1]) pos ix1.length,
                    c = r1 ∨ c ∈ ls1 := by
                  intro c hc
                  have h1 := (rotate_perm hposle hlsr1len).mem_iff.mp hc
                  rw [List.mem_append] at h1
                  rcases h1 with hmem | hs
                  · exact Or.inr hmem
                  · simp only [List.mem_singleton] at hs
                    exact Or.inl hs
                have hlen3 : (rotateTo (ls1 ++ [r1]) pos ix1.length).length =
                    ls1.length + 1 := by
                  rw [rotate_length hposle hlsr1len]
                  simp
                have hlenix2 : (rotateTo (ix1 ++ [nextChar]) pos ix1.length).length =
                    ix1.length + 1 := by
                  rw [rotate_length hposle hixClen]
                  simp
                have hzip2 : (rotateTo (ix1 ++ [nextChar]) pos ix1.length).zip
                      (rotateTo (ls1 ++ [r1]) pos ix1.length) =
                    rotateTo ((ix1.zip ls1) ++ [(nextChar, r1)]) pos ix1.length := by
                  rw [rotate_zip (by simp [hixls]) hposle hixClen, zip_append_my hixls]
                  rfl
                have hzlen : ix1.length < ((ix1.zip ls1) ++ [(nextChar, r1)]).length := by
                  rw [List.length_append, List.length_zip]
                  simp
                  omega
                have haligned2 : alignedB (rotateTo (ix1 ++ [nextChar]) pos ix1.length)
                    (rotateTo (ls1 ++ [r1]) pos ix1.length) = true := by
                  refine alignedB_of_pairs (by rw [hlenix2, hlen3, hixls]) ?_
                  intro pz hpz
                  rw [hzip2] at hpz
                  have h1 := (rotate_perm hposle hzlen).mem_iff.mp hpz
                  rw [List.mem_append] at h1
                  rcases h1 with hmem | hs
                  · exact halignz pz hmem
                  · simp only [List.mem_singleton] at hs
                    subst hs
                    exact hr1head
                have hnodup2 : nodupB (rotateTo (ix1 ++ [nextChar]) pos ix1.length) = true := by
                  rw [nodupB_iff]
                  refine ((rotate_perm hposle hixClen).nodup_iff).mpr ?_
                  refine (List.perm_append_singleton _ _).nodup_iff.mpr ?_
                  rw [List.nodup_cons]
                  exact ⟨hnotin, (nodupB_iff _).mp hnodup1⟩
                have hnoix2 : noSent (rotateTo (ix1 ++ [nextChar]) pos ix1.length) = true := by
                  refine noSent_of_forall ?_
                  intro c hc
                  have h1 := (rotate_perm hposle hixClen).mem_iff.mp hc
                  rw [List.mem_append] at h1
                  rcases h1 with hmem | hs
                  · exact noSent_mem hnoix1 hmem
                  · simp only [List.mem_singleton] at hs
                    subst hs
                    rintro (h1 | h1)
                    · exact hsent2.1 h1
                    · exact hsent2.2 h1
                have hallst3 : allStatic (rotateTo (ls1 ++ [r1]) pos ix1.length) = true :=
                  allStatic_of_mem _ (by
                    intro c hc
                    rcases hmem3 c hc with rfl | hmem
                    · exact ihty
                    · exact allStatic_mem hstat1 hmem)
                have hwfL3 : wfL d (rotateTo (ls1 ++ [r1]) pos ix1.length) = true :=
                  wfL_of_mem d _ (by
                    intro c hc
                    rcases hmem3 c hc with rfl | hmem
                    · exact ihwf
                    · exact wfL_mem hwfls1 hmem)
                have hcntL3 : countHandlersL (rotateTo (ls1 ++ [r1]) pos ix1.length) =
                    countHandlersL ls1 + 1 := by
                  rw [countHandlersL_perm (rotate_perm hposle hlsr1len),
                    countHandlersL_append]
                  simp only [countHandlersL]
                  omega
                have hcount : countHandlers (.mk (path.take (longestCommonPrefix np path)) pr t
                      (rotateTo (ls1 ++ [r1]) pos ix1.length)
                      (rotateTo (ix1 ++ [nextChar]) pos ix1.length) w1 ca1 h1 nm) =
                    countHandlers (.mk (path.take (longestCommonPrefix np path)) pr t
                      ls1 ix1 w1 ca1 h1 nm) + 1 := by
                  rw [countHandlers, countHandlers, hcntL3]
                  omega
                refine ⟨?_, by rw [hcount, hcnt1], rfl,
                  by simp only [Node.path]; exact hheadT, rfl⟩
                rw [wf_split, Bool.and_eq_true]
                constructor
                · rw [wfCore_mk]
                  simp only [Bool.and_eq_true]
                  refine ⟨⟨⟨⟨⟨⟨⟨⟨?_, hnoix2⟩, hallst3⟩, hnm1⟩, hwty1⟩, hcaty1⟩, hwfL3⟩, hwfw1⟩, hwfca1⟩
                  rcases hpre with hparam | ⟨hts, -⟩
                  · -- param node gaining its continuation child
                    obtain ⟨hTp, -, hpr1, -, -, -, hw1n, hca1n⟩ := hparamparts hparam
                    obtain ⟨hls1e, hix1e⟩ := hparamnil hparam
                    subst hparam
                    simp only [Bool.and_eq_true]
                    refine ⟨⟨⟨⟨⟨⟨⟨decide_eq_true hTp, ?_⟩, decide_eq_true hpr1⟩, ?_⟩, ?_⟩, ?_⟩,
                      by rw [hw1n]; rfl⟩, by rw [hca1n]; rfl⟩
                    · rw [hlen3, hls1e]
                      simp
                    · exact (Bool.or_eq_true _ _).mpr (Or.inr haligned2)
                    · exact hnodup2
                    · refine headsSlash_of_mem _ ?_
                      intro c hc
                      rcases hmem3 c hc with rfl | hmem
                      · rw [hr1head, hparamslash rfl]
                      · rw [hls1e] at hmem
                        cases hmem
                  · obtain ⟨hTnos, -, -⟩ := hstaticparts hts
                    rcases hts with rfl | rfl <;>
                      · simp only [Bool.and_eq_true]
                        exact ⟨⟨hTnos, haligned2⟩, hnodup2⟩
                · rcases hpre with hparam | ⟨hts, hpr⟩
                  · exact prOk_other (Or.inl (by simp only [Node.nType]; exact hparam))
                  · refine prOk_build (by simp only [Node.nType]; exact hts) ?_
                    simp only [Node.priority]
                    rw [hcount, hcnt1]
                    exact hpr
              · -- wildcard head: hand over to insertChild on the existing node
                rw [if_neg hsent2] at hres
                have hsent3 : nextChar = ':' ∨ nextChar = '*' := by
                  by_cases h1 : nextChar = ':'
                  · exact Or.inl h1
                  · push_neg at hsent2
                    exact Or.inr (hsent2 h1)
                have htnp : ¬ t = .param := by
                  intro htp
                  have hx := hparamslash htp
                  rcases hsent3 with h3 | h3 <;> rw [h3] at hx <;> cases hx
                obtain ⟨hts, hpr⟩ : (t = .static ∨ t = .root) ∧
                    pr = countHandlers (.mk np pr t ls ix w ca h nm) + 1 := by
                  rcases hpre with hp | hsp
                  · exact absurd hp htnp
                  · exact hsp
                have hTne : path.take (longestCommonPrefix np path) ≠ [] := by
                  have hx : (path.take (longestCommonPrefix np path)).length =
                      longestCommonPrefix np path := by
                    rw [List.length_take]
                    omega
                  intro hcon
                  rw [hcon] at hx
                  simp at hx
                  omega
                obtain ⟨hcore', hcnt', hty', hpath', hprio', hhandle', hnames'⟩ :=
                  insertChild_existing ((nextChar :: rest1).length + 1)
                    (path.take (longestCommonPrefix np path)) pr t ls1 ix1 w1 ca1 h1 nm d
                    (nextChar :: rest1) handle names n' (by omega)
                    (by
                      rcases hsent3 with h3 | h3
                      · exact Or.inl (by rw [List.head?_cons, h3])
                      · exact Or.inr (by rw [List.head?_cons, h3]))
                    hns1 hTne hts hnames1 hh hwf1' hres
                refine ⟨?_, by rw [hcnt', hcnt1], hty', by rw [hpath']; exact hheadT, hprio'⟩
                rw [wf_split, Bool.and_eq_true]
                refine ⟨hcore', prOk_build (by rw [hty']; exact hts) ?_⟩
                rw [hprio', hcnt', hcnt1]
                exact hpr
    by_cases hsplit : longestCommonPrefix np path < np.length
    · -- the node is split first
      have hts : t = .static ∨ t = .root := by
        rcases hpre with hparam | ⟨hts, -⟩
        · exfalso
          have hclp := hwfc
          rw [wfCore_mk] at hclp
          simp only [Bool.and_eq_true] at hclp
          obtain ⟨⟨⟨⟨⟨⟨⟨⟨hcl0, -⟩, -⟩, -⟩, -⟩, -⟩, -⟩, -⟩, -⟩ := hclp
          subst hparam
          simp only [Bool.and_eq_true] at hcl0
          obtain ⟨⟨⟨⟨⟨⟨⟨hTp, -⟩, -⟩, -⟩, -⟩, -⟩, -⟩, -⟩ := hcl0
          have hnp1 : np = [':'] := of_decide_eq_true hTp
          have hlen1 : np.length = 1 := by rw [hnp1]; rfl
          omega
        · exact hts
      have hwfc2 := hwfc
      rw [wfCore_mk] at hwfc2
      simp only [Bool.and_eq_true] at hwfc2
      obtain ⟨⟨⟨⟨⟨⟨⟨⟨hclauseO, hnoixO⟩, hstatO⟩, hnmO⟩, hwtyO⟩, hcatyO⟩, hwflsO⟩, hwfwO⟩, hwfcaO⟩ := hwfc2
      have hstaticsO : (noSent np && alignedB ix ls && nodupB ix) = true := by
        rcases hts with rfl | rfl <;> exact hclauseO
      simp only [Bool.and_eq_true] at hstaticsO
      obtain ⟨⟨hnosO, haligO⟩, hnodupO⟩ := hstaticsO
      have hpr : pr = countHandlers (.mk np pr t ls ix w ca h nm) + 1 := by
        rcases hpre with hp | hsp
        · exfalso
          rcases hts with rfl | rfl <;> cases hp
        · exact hsp.2
      obtain ⟨npi, hnpi⟩ : ∃ c, np.get? (longestCommonPrefix np path) = some c :=
        ⟨_, List.get?_eq_get hsplit⟩
      have hdropnp : np.drop (longestCommonPrefix np path) =
          npi :: np.drop (longestCommonPrefix np path + 1) := get?_drop_decomp hnpi
      have hchildcount : countHandlers (.mk (np.drop (longestCommonPrefix np path)) (pr - 1)
            .static ls ix w ca h nm) = countHandlers (.mk np pr t ls ix w ca h nm) := by
        rw [countHandlers, countHandlers]
      have hwfchild : wfNode d (.mk (np.drop (longestCommonPrefix np path)) (pr - 1)
          .static ls ix w ca h nm) = true := by
        rw [wf_split, Bool.and_eq_true]
        constructor
        · rw [wfCore_mk]
          simp only [Bool.and_eq_true]
          exact ⟨⟨⟨⟨⟨⟨⟨⟨⟨⟨noSent_drop hnosO _, haligO⟩, hnodupO⟩, hnoixO⟩, hstatO⟩, hnmO⟩,
            hwtyO⟩, hcatyO⟩, hwflsO⟩, hwfwO⟩, hwfcaO⟩
        · refine prOk_build (Or.inl rfl) ?_
          simp only [Node.priority]
          rw [hchildcount]
          omega
      have hnpimem : npi ∈ np := List.get?_mem hnpi
      have htake1 : (np.drop (longestCommonPrefix np path)).take 1 = [npi] := by
        rw [hdropnp]
        rfl
      refine hmain [.mk (np.drop (longestCommonPrefix np path)) (pr - 1) .static ls ix w ca h nm]
        ((np.drop (longestCommonPrefix np path)).take 1) none none none ?_ ?_ ?_ ?_
      · rw [if_pos hsplit, splitNode]
      · rw [wfCore_mk]
        simp only [Bool.and_eq_true]
        refine ⟨⟨⟨⟨⟨⟨⟨⟨?_, ?_⟩, ?_⟩, ?_⟩, ?_⟩, ?_⟩, ?_⟩, ?_⟩, ?_⟩
        · rcases hts with rfl | rfl <;>
            · simp only [Bool.and_eq_true]
              refine ⟨⟨?_, ?_⟩, ?_⟩
              · rw [← htakeeq]
                exact noSent_take hnosO _
              · rw [htake1]
                exact alignedB_singleton _ _ (by
                  simp only [Node.path]
                  rw [hdropnp]
                  rfl)
              · rw [htake1]
                rfl
        · rw [htake1]
          refine noSent_of_forall ?_
          intro c hc
          have hc2 : c = npi := by simpa using hc
          subst hc2
          exact noSent_mem hnosO hnpimem
        · exact allStatic_of_mem _ (by
            intro c hc
            simp only [List.mem_singleton] at hc
            subst hc
            rfl)
        · trivial
        · trivial
        · trivial
        · rw [wfL, Bool.and_eq_true]
          exact ⟨hwfchild, by rw [wfL]⟩
        · rfl
        · rfl
      · rw [countHandlers]
        simp only [countHandlersL, countHandlersO]
        rw [hchildcount]
        simp
      · rw [← htakeeq, noSent_countWild (noSent_take hnosO _), noSent_countWild hnosO]
    · -- no split: the node's segment is exactly the common prefix
      have hieq : longestCommonPrefix np path = np.length := by omega
      have htakeall : np.take (longestCommonPrefix np path) = np :=
        List.take_all_of_le (by omega)
      have hnpT : np = path.take (longestCommonPrefix np path) := by
        rw [← htakeeq, htakeall]
      refine hmain ls ix w ca h ?_ ?_ ?_ ?_
      · rw [if_neg hsplit]
        nth_rewrite 1 [hnpT]
        rfl
      · rw [← hnpT]
        exact hwfc
      · rw [← hnpT]
      · rw [← hnpT]

/-- Claim C7, witness: the general characterization applied to the
`GET`/`POST` table at the unregistered path `/nope` yields the empty
Allow value. -/
theorem c7_witness : allowed exC7r ['/', 'n', 'o', 'p', 'e'] [] = some [] :=
  (c7_allowed_methods.1 exC7r ['/', 'n', 'o', 'p', 'e'] [] (by decide) (by decide)).1 (by decide)

end HR
